import Mathlib

/-
Shallow embedding of the record validation and update module of the
my-data-module repository (source file src/index.ts, type declarations
src/types.ts), together with proofs about its behaviour.

The JavaScript value universe is modelled by the inductive type JSVal:
primitives (null, undefined, booleans, numbers, strings) plus Date
objects, arrays and plain objects.  Numbers are modelled as exact
rationals extended with NaN and the two signed infinities; bit-level
IEEE double behaviour is not modelled, but every operation the source
performs on numbers (typeof, isNaN, toFixed(2) followed by parseFloat,
strict comparison) is modelled on this domain.  Objects are
association lists of their own enumerable properties in insertion
order; property names of a JavaScript object are distinct, which is
reflected by nodup hypotheses where a proof needs it.

Two embeddings appear below.
The value-level embedding treats each function as a transformer of
immutable values; the in-place price write of validateRecord is made
explicit by returning the final state of the candidate object next to
the validation result.
A second, heap-level embedding (types with an H suffix) gives objects,
arrays and Date values identities (addresses in an explicit heap) so
that statements about mutation and aliasing - in particular that
updateRecordWithValidation never mutates the record it is given - are
meaningful and provable rather than vacuous.
-/

/-- Model of a JavaScript number: an exact rational, NaN, or a signed
infinity. -/
inductive JSNum where
  | num (q : ℚ)
  | nan
  | inf (pos : Bool)
deriving DecidableEq, Repr

/-- Model of a JavaScript value, at the level of immutable value trees. -/
inductive JSVal where
  | vNull
  | vUndefined
  | vBool (b : Bool)
  | vNum (n : JSNum)
  | vStr (s : String)
  | vDate (time : Int)
  | vArr (elems : List JSVal)
  | vObj (fields : List (String × JSVal))
deriving Repr

/-- Result of the typeof operator on a modelled value.  Note that
typeof null is the string "object", as in JavaScript. -/
def jsTypeof : JSVal → String
  | .vNull => "object"
  | .vUndefined => "undefined"
  | .vBool _ => "boolean"
  | .vNum _ => "number"
  | .vStr _ => "string"
  | .vDate _ => "object"
  | .vArr _ => "object"
  | .vObj _ => "object"

/-- Test for the null value (the record === null check of the source). -/
def isNullV : JSVal → Bool
  | .vNull => true
  | _ => false

/-- Property lookup on an association list of fields: the value of the
first binding of the key, or undefined when the key is absent. -/
def getFieldList : List (String × JSVal) → String → JSVal
  | [], _ => .vUndefined
  | (k', v) :: rest, k => if k' = k then v else getFieldList rest k

/-- Property lookup on a value.  Plain objects look up their fields;
dates and arrays carry no own string-named properties in the modelled
fragment, and property access on any non-object primitive yields
undefined (the source only performs it after its typeof guards). -/
def getField : JSVal → String → JSVal
  | .vObj fs, k => getFieldList fs k
  | _, _ => .vUndefined

/-- Property write on an association list: replace the first binding
of the key, or append a new binding when the key is absent - the
semantics of a JavaScript property assignment on a plain object. -/
def setFieldList : List (String × JSVal) → String → JSVal → List (String × JSVal)
  | [], k, v => [(k, v)]
  | (k', v') :: rest, k, v =>
      if k' = k then (k, v) :: rest else (k', v') :: setFieldList rest k v

/-- Property write on a value; only plain objects are written to in
the modelled fragment (the typed contracts of the source guarantee the
target is a plain object). -/
def setField : JSVal → String → JSVal → JSVal
  | .vObj fs, k, v => .vObj (setFieldList fs k v)
  | v, _, _ => v

/-- The isNaN test on a number (the source applies it only after a
typeof number guard, so no coercion is involved). -/
def jsIsNaN : JSNum → Bool
  | .nan => true
  | _ => false

/-- Rounding of a rational to 2 decimal places, as performed by
x.toFixed(2) followed by parseFloat: the numerator n of n / 100
closest to x is chosen, the larger one on a tie, which is the floor of
x * 100 + 1 / 2. -/
def round2q (q : ℚ) : ℚ := ((⌊q * 100 + 1 / 2⌋ : ℤ) : ℚ) / 100

/-- The effect of parseFloat(x.toFixed(2)) on a modelled number:
finite values are rounded to 2 decimal places; NaN prints as the
string NaN and parses back to NaN, and likewise each infinity prints
as a signed Infinity string and parses back to itself. -/
def round2 : JSNum → JSNum
  | .num q => .num (round2q q)
  | .nan => .nan
  | .inf b => .inf b

/-- Test of the anchored regular expression [a-zA-Z0-9]+ between ^ and
$ against a string: non-empty and every character an ASCII letter or
digit. -/
def isAlnumTag (s : String) : Bool :=
  s.data.length > 0 && s.data.all Char.isAlphanum

/-- One element of the tags array fails the check of the source when
it is not a string or not alphanumeric. -/
def tagBad : JSVal → Bool
  | .vStr s => !(isAlnumTag s)
  | _ => true

/-- ValidationResult of src/types.ts: an isValid flag, an optional
record and an optional error list. -/
structure ValidationResult where
  isValid : Bool
  record : Option JSVal := none
  errors : Option (List String) := none
deriving Repr

/-- UpdateResult of src/types.ts; structurally identical to
ValidationResult, kept separate to mirror the source. -/
structure UpdateResult where
  isValid : Bool
  record : Option JSVal := none
  errors : Option (List String) := none
deriving Repr

/-- Model of String.prototype.trim: strip leading and trailing
whitespace characters (the ASCII whitespace subset of the JavaScript
WhiteSpace and LineTerminator sets; the records of this module use
none of the non-ASCII ones). -/
def jsTrim (s : String) : String :=
  String.mk (((s.data.dropWhile Char.isWhitespace).reverse.dropWhile
    Char.isWhitespace).reverse)

/-- The id check of validateRecord: typeof record.id !== a string, or
the trimmed id is empty. -/
def idErrorB (record : JSVal) : Bool :=
  match getField record "id" with
  | .vStr s => (jsTrim s).data.length == 0
  | _ => true

/-- The name check of validateRecord, identical in shape to the id
check. -/
def nameErrorB (record : JSVal) : Bool :=
  match getField record "name" with
  | .vStr s => (jsTrim s).data.length == 0
  | _ => true

/-- Errors contributed by the Validate ID block of the source. -/
def idErrs (record : JSVal) : List String :=
  if idErrorB record then ["ID is required and must be a string."] else []

/-- Errors contributed by the Validate Name block of the source. -/
def nameErrs (record : JSVal) : List String :=
  if nameErrorB record then ["Name is required and must be a non-empty string."] else []

/-- The Validate Price block of the source: either an error, or the
side effect of rounding the price field in place on the candidate.
The first component is the errors the block pushes, the second the
state of the candidate after the block. -/
def priceStep (record : JSVal) : List String × JSVal :=
  match getField record "price" with
  | .vNum n =>
      if jsIsNaN n then (["Price is required and must be a number."], record)
      else ([], setField record "price" (.vNum (round2 n)))
  | _ => (["Price is required and must be a number."], record)

/-- Errors contributed by the Validate Tags block of the source, read
off the candidate as it stands after the price block. -/
def tagsErrs (record1 : JSVal) : List String :=
  match getField record1 "tags" with
  | .vArr tags =>
      if tags.any tagBad then ["All tags must be alphanumeric strings."] else []
  | _ => ["Tags are required and must be an array."]

/-- validateRecord of src/index.ts, in state-passing form: the first
component is the ValidationResult, the second is the final state of
the candidate object (the source rounds the price field in place on
the object it is handed, so the candidate after the call can differ
from the candidate before it). -/
def validateRecord (record : JSVal) : ValidationResult × JSVal :=
  if jsTypeof record != "object" || isNullV record then
    ({ isValid := false, errors := some ["Record must be an object."] }, record)
  else
    let record1 := (priceStep record).2
    let errors := idErrs record ++ nameErrs record ++ (priceStep record).1 ++ tagsErrs record1
    if errors.length > 0 then
      ({ isValid := false, errors := some errors }, record1)
    else
      ({ isValid := true, record := some record1 }, record1)

mutual

/-- deepCopy of src/index.ts at the level of value trees: primitives
are returned as they are, a Date is rebuilt from its time value,
arrays are copied element by element and plain objects own property by
own property.  On immutable value trees the copy is provably equal to
the original; the heap-level embedding further down captures that the
copy is a fresh object graph. -/
def deepCopy : JSVal → JSVal
  | .vNull => .vNull
  | .vUndefined => .vUndefined
  | .vBool b => .vBool b
  | .vNum n => .vNum n
  | .vStr s => .vStr s
  | .vDate t => .vDate t
  | .vArr xs => .vArr (deepCopyList xs)
  | .vObj fs => .vObj (deepCopyFields fs)

/-- Element-wise deepCopy of an array. -/
def deepCopyList : List JSVal → List JSVal
  | [] => []
  | x :: xs => deepCopy x :: deepCopyList xs

/-- Property-wise deepCopy of a plain object (every binding of the
modelled association list is an own enumerable property, so the
hasOwnProperty guard of the source always passes). -/
def deepCopyFields : List (String × JSVal) → List (String × JSVal)
  | [] => []
  | kv :: kvs => (kv.1, deepCopy kv.2) :: deepCopyFields kvs

end

/-- Strict equality on numbers: NaN is unequal to everything, each
infinity is equal to itself, finite values compare exactly. -/
def numStrictEq : JSNum → JSNum → Bool
  | .num a, .num b => a == b
  | .inf a, .inf b => a == b
  | _, _ => false

/-- Strict equality of a value from the change set with a value read
from the freshly deep-copied record, as used by the merge loop of
updateRecordWithValidation.  Primitives compare by value (and NaN is
strictly unequal to everything including itself, which the price
branch checks separately before this comparison is reached for
numbers).  Objects, arrays and dates compare by reference in
JavaScript; every object, array or date read from the deep copy is a
freshly allocated one that no change set can hold a reference to, so
the comparison is false whenever either side is of reference type. -/
def jsStrictEq : JSVal → JSVal → Bool
  | .vNull, .vNull => true
  | .vUndefined, .vUndefined => true
  | .vBool a, .vBool b => a == b
  | .vNum a, .vNum b => numStrictEq a b
  | .vStr a, .vStr b => a == b
  | _, _ => false

/-- Rendering of a number by the String coercion of the default array
sort comparator: NaN and the infinities render as their names; finite
integers render as in JavaScript; other rationals render as a
numerator-slash-denominator token, which is injective on the modelled
rationals (digit-for-digit decimal formatting of doubles is not
modelled; the records of this module only ever sort arrays of
strings, where this function is not consulted beyond the string
itself). -/
def jsNumToString : JSNum → String
  | .nan => "NaN"
  | .inf true => "Infinity"
  | .inf false => "-Infinity"
  | .num q =>
      if q.den == 1 then toString q.num
      else toString q.num ++ "/" ++ toString q.den

mutual

/-- String coercion of a value as used by the default sort comparator:
strings are themselves, arrays join their elements with commas, plain
objects coerce to the usual object token. -/
def jsToString : JSVal → String
  | .vNull => "null"
  | .vUndefined => "undefined"
  | .vBool b => if b then "true" else "false"
  | .vNum n => jsNumToString n
  | .vStr s => s
  | .vDate t => "Date:" ++ toString t
  | .vArr xs => jsToStringList xs
  | .vObj _ => "[object Object]"

/-- Comma join of the string coercions of the elements of an array. -/
def jsToStringList : List JSVal → String
  | [] => ""
  | [x] => jsToString x
  | x :: xs => jsToString x ++ "," ++ jsToStringList xs

end

/-- Comparator order of the default array sort: elements are compared
by their string coercion, except that undefined elements always come
last. -/
def jsSortLE (a b : JSVal) : Bool :=
  match a, b with
  | .vUndefined, _ => false
  | _, .vUndefined => true
  | _, _ => decide (jsToString a ≤ jsToString b)

/-- Stable insertion into a list sorted by the default sort
comparator. -/
def insertSorted (x : JSVal) : List JSVal → List JSVal
  | [] => [x]
  | y :: ys => if jsSortLE x y then x :: y :: ys else y :: insertSorted x ys

/-- The [...xs].sort() of the source: a stable sort of a copy of the
array by the default comparator; the original array is not modified,
which the value-level embedding renders by sortTags being a pure
function. -/
def sortTags : List JSVal → List JSVal
  | [] => []
  | x :: xs => insertSorted x (sortTags xs)

/-- Test whether a value serializes to the JSON token null: the null
and undefined values do (undefined as an array element), and so do
NaN and the infinities. -/
def jsonNullLike : JSVal → Bool
  | .vNull => true
  | .vUndefined => true
  | .vNum .nan => true
  | .vNum (.inf _) => true
  | _ => false

/-- Equality of the JSON serializations of two numbers: non-finite
values all serialize to null, finite values serialize injectively. -/
def jsonNumEq : JSNum → JSNum → Bool
  | .num a, .num b => a == b
  | .num _, _ => false
  | _, .num _ => false
  | _, _ => true

mutual

/-- Equality of JSON.stringify serializations, decided structurally
instead of via the intermediate strings: serialization is injective on
each class of values, values serializing to the null token are
identified, dates serialize through their ISO string and hence compare
by time value.  The source only applies this comparison to the two
sorted tags arrays. -/
def jsonEqual : JSVal → JSVal → Bool
  | .vBool x, .vBool y => x == y
  | .vNum x, .vNum y => jsonNumEq x y
  | .vStr x, .vStr y => x == y
  | .vDate x, .vDate y => x == y
  | .vArr xs, .vArr ys => jsonEqualList xs ys
  | .vObj fs, .vObj gs => jsonEqualFields fs gs
  | a, b => jsonNullLike a && jsonNullLike b

/-- Element-wise JSON equality of arrays. -/
def jsonEqualList : List JSVal → List JSVal → Bool
  | [], [] => true
  | x :: xs, y :: ys => jsonEqual x y && jsonEqualList xs ys
  | _, _ => false

/-- Pairwise JSON equality of object fields in insertion order. -/
def jsonEqualFields : List (String × JSVal) → List (String × JSVal) → Bool
  | [], [] => true
  | kv :: kvs, lw :: lws => kv.1 == lw.1 && jsonEqual kv.2 lw.2 && jsonEqualFields kvs lws
  | _, _ => false

end

/-- The order-insensitive tags comparison of the merge loop:
JSON.stringify of a sorted copy of the new array against
JSON.stringify of a sorted copy of the old array. -/
def tagsContentEqual (newTags oldTags : List JSVal) : Bool :=
  jsonEqual (.vArr (sortTags newTags)) (.vArr (sortTags oldTags))

/-- The typeof x === a number test together with the extraction of
the numeric value it guards. -/
def jsNumOf : JSVal → Option JSNum
  | .vNum n => some n
  | _ => none

/-- The Array.isArray test together with the extraction of the
elements it guards. -/
def jsArrOf : JSVal → Option (List JSVal)
  | .vArr xs => some xs
  | _ => none

/-- The final else branch of the merge loop: write the new value when
it is strictly unequal to the old one. -/
def applyOtherKey (updatedRecord : List (String × JSVal)) (key : String)
    (newValue oldValue : JSVal) : List (String × JSVal) :=
  if jsStrictEq newValue oldValue then updatedRecord
  else setFieldList updatedRecord key newValue

/-- One iteration of the merge loop of updateRecordWithValidation on
the deep-copied record, following the if / else-if / else chain of the
source: a price key with numeric new and old values is written only
when the two values differ after rounding to 2 decimal places; a tags
key with array new and old values is written only when the sorted
contents differ; every other case falls through to the strict
inequality test. -/
def applyOneUpdate (updatedRecord : List (String × JSVal)) (key : String)
    (newValue : JSVal) : List (String × JSVal) :=
  let oldValue := getFieldList updatedRecord key
  if key = "price" then
    match jsNumOf newValue, jsNumOf oldValue with
    | some newN, some oldN =>
        if numStrictEq (round2 newN) (round2 oldN) then updatedRecord
        else setFieldList updatedRecord key newValue
    | _, _ => applyOtherKey updatedRecord key newValue oldValue
  else if key = "tags" then
    match jsArrOf newValue, jsArrOf oldValue with
    | some newTags, some oldTags =>
        if tagsContentEqual newTags oldTags then updatedRecord
        else setFieldList updatedRecord key newValue
    | _, _ => applyOtherKey updatedRecord key newValue oldValue
  else applyOtherKey updatedRecord key newValue oldValue

/-- updateRecordWithValidation of src/index.ts.  The record and the
change set are given as their own enumerable properties in insertion
order (MyRecord and UpdatedRecord are object types); now is the value
of Date.now() at call time, the injected clock of the specification.
The function deep-copies the record, unconditionally stamps the
updatedAt field of the copy, folds the merge loop over the keys of the
change set, and hands the copy to validateRecord. -/
def updateRecordWithValidation (currentRecord : List (String × JSVal))
    (updates : List (String × JSVal)) (now : Int) : UpdateResult :=
  let updatedRecord := deepCopyFields currentRecord
  let updatedRecord := setFieldList updatedRecord "updatedAt" (.vDate now)
  let updatedRecord := updates.foldl (fun r kv => applyOneUpdate r kv.1 kv.2) updatedRecord
  let validationResult := (validateRecord (.vObj updatedRecord)).1
  if !validationResult.isValid then
    { isValid := false, errors := validationResult.errors }
  else
    { isValid := true, record := validationResult.record }

/-! An exception-instrumented second transcription of validateRecord,
for the claim that it can never throw: every method call of the source
(trim, toFixed, some) and every property access on the candidate is
routed through an operation that raises a TypeError exactly when the
real JavaScript operation would, so totality of the instrumented
function - it always returns ok - is the no-throw property. -/

/-- Property access on an arbitrary value: reading a property of null
or undefined throws a TypeError, reading one of any other value
yields the property value or undefined. -/
def getFieldE : JSVal → String → Except String JSVal
  | .vNull, _ => .error "TypeError: cannot read properties of null"
  | .vUndefined, _ => .error "TypeError: cannot read properties of undefined"
  | v, k => .ok (getField v k)

/-- A .trim() call: a TypeError unless the receiver is a string. -/
def trimE : JSVal → Except String String
  | .vStr s => .ok (jsTrim s)
  | _ => .error "TypeError: trim is not a function"

/-- A .toFixed(2) call followed by parseFloat: a TypeError unless the
receiver is a number. -/
def toFixed2ParseE : JSVal → Except String JSNum
  | .vNum n => .ok (round2 n)
  | _ => .error "TypeError: toFixed is not a function"

/-- A .some(...) call with the tag test of the source as the
predicate: a TypeError unless the receiver is an array. -/
def someTagBadE : JSVal → Except String Bool
  | .vArr tags => .ok (tags.any tagBad)
  | _ => .error "TypeError: some is not a function"

/-- The isNaN test as applied to an already-read property value (the
source only reaches it for numbers thanks to the short-circuit; the
global isNaN never throws). -/
def isNaNV : JSVal → Bool
  | .vNum n => jsIsNaN n
  | _ => false

/-- One of the two identical string-field blocks of the source (id and
name): the typeof guard, then the trim call on the now known string. -/
def strFieldBadE (record : JSVal) (key : String) : Except String Bool := do
  let v ← getFieldE record key
  if jsTypeof v != "string" then pure true
  else do
    let t ← trimE v
    pure (t.data.length == 0)

/-- The price block with its method calls instrumented. -/
def priceCheckE (record : JSVal) : Except String (List String × JSVal) := do
  let v ← getFieldE record "price"
  if jsTypeof v != "number" || isNaNV v then
    pure (["Price is required and must be a number."], record)
  else do
    let r ← toFixed2ParseE v
    pure ([], setField record "price" (.vNum r))

/-- The tags block with its method calls instrumented, reading the
candidate as it stands after the price block. -/
def tagsCheckE (record1 : JSVal) : Except String (List String) := do
  let v ← getFieldE record1 "tags"
  match jsArrOf v with
  | none => pure ["Tags are required and must be an array."]
  | some _ => do
      let bad ← someTagBadE v
      pure (if bad then ["All tags must be alphanumeric strings."] else [])

/-- validateRecord with every property access and method call
instrumented for exceptions; its totality is the no-throw claim. -/
def validateRecordE (record : JSVal) : Except String (ValidationResult × JSVal) := do
  if jsTypeof record != "object" || isNullV record then
    return ({ isValid := false, errors := some ["Record must be an object."] }, record)
  else
    let idBad ← strFieldBadE record "id"
    let nameBad ← strFieldBadE record "name"
    let priceRes ← priceCheckE record
    let record1 := priceRes.2
    let terrs ← tagsCheckE record1
    let errors :=
      (if idBad then ["ID is required and must be a string."] else []) ++
      (if nameBad then ["Name is required and must be a non-empty string."] else []) ++
      priceRes.1 ++ terrs
    if errors.length > 0 then
      return ({ isValid := false, errors := some errors }, record1)
    else
      return ({ isValid := true, record := some record1 }, record1)

/-! A heap-level embedding of the same two functions, in which
objects, arrays and Date values are references into an explicit heap,
so that mutation and aliasing are represented rather than abstracted
away.  This is the embedding on which the no-mutation claim about
updateRecordWithValidation is stated: a JavaScript engine updates
object contents in place, and only on a model with object identities
is "the base record is not mutated" a statement with content. -/

/-- A heap address. -/
abbrev Addr := Nat

/-- Heap-level value: a primitive, or a reference to a heap node. -/
inductive HVal where
  | hNull
  | hUndefined
  | hBool (b : Bool)
  | hNum (n : JSNum)
  | hStr (s : String)
  | hRef (a : Addr)
deriving DecidableEq, Repr

/-- Heap node: a plain object, an array, or a Date. -/
inductive HNode where
  | hObj (fields : List (String × HVal))
  | hArr (elems : List HVal)
  | hDate (time : Int)
deriving DecidableEq, Repr

/-- The heap: a bump-allocated store of nodes.  next is the lowest
address never handed out; mem associates live addresses to nodes. -/
structure Heap where
  next : Addr
  mem : List (Addr × HNode)
deriving DecidableEq, Repr

/-- Lookup of an address in the store. -/
def lookupAddr : List (Addr × HNode) → Addr → Option HNode
  | [], _ => none
  | (b, nd) :: rest, a => if b = a then some nd else lookupAddr rest a

/-- Read the node at an address. -/
def readAddr (h : Heap) (a : Addr) : Option HNode :=
  lookupAddr h.mem a

/-- Overwrite the node at an address (used only for addresses already
allocated). -/
def writeAddr (h : Heap) (a : Addr) (nd : HNode) : Heap :=
  { h with mem := h.mem.map (fun p => if p.1 = a then (a, nd) else p) }

/-- Allocate a fresh node, returning the new heap and the fresh
address. -/
def allocNode (h : Heap) (nd : HNode) : Heap × Addr :=
  ({ next := h.next + 1, mem := (h.next, nd) :: h.mem }, h.next)

/-- Property lookup on heap-level object fields. -/
def getHFieldList : List (String × HVal) → String → HVal
  | [], _ => .hUndefined
  | (k', v) :: rest, k => if k' = k then v else getHFieldList rest k

/-- Property write on heap-level object fields. -/
def setHFieldList : List (String × HVal) → String → HVal → List (String × HVal)
  | [], k, v => [(k, v)]
  | (k', v') :: rest, k, v =>
      if k' = k then (k, v) :: rest else (k', v') :: setHFieldList rest k v

/-- Read a property of the object at an address; dates and arrays
carry no own string-named properties in the modelled fragment. -/
def getFieldH (h : Heap) (a : Addr) (k : String) : HVal :=
  match readAddr h a with
  | some (.hObj fields) => getHFieldList fields k
  | _ => .hUndefined

/-- Write a property of the object at an address in place (the typed
contracts of the source guarantee the target is a plain object; on any
other node the write is dropped). -/
def writeFieldH (h : Heap) (a : Addr) (k : String) (v : HVal) : Heap :=
  match readAddr h a with
  | some (.hObj fields) => writeAddr h a (.hObj (setHFieldList fields k v))
  | _ => h

/-- Property read through a value: reading a property of a reference
reads the object it points to. -/
def getPropH (h : Heap) (v : HVal) (k : String) : HVal :=
  match v with
  | .hRef a => getFieldH h a k
  | _ => .hUndefined

/-- Property write through a value. -/
def writePropH (h : Heap) (v : HVal) (k : String) (w : HVal) : Heap :=
  match v with
  | .hRef a => writeFieldH h a k w
  | _ => h

/-- The typeof operator at the heap level: every reference is an
object (arrays and dates included), and typeof null is "object". -/
def jsTypeofH : HVal → String
  | .hNull => "object"
  | .hUndefined => "undefined"
  | .hBool _ => "boolean"
  | .hNum _ => "number"
  | .hStr _ => "string"
  | .hRef _ => "object"

/-- Strict equality at the heap level: primitives by value (NaN
unequal to itself), references by address - exactly the reference
identity of the JavaScript === operator. -/
def hStrictEq : HVal → HVal → Bool
  | .hNull, .hNull => true
  | .hUndefined, .hUndefined => true
  | .hBool a, .hBool b => a == b
  | .hNum a, .hNum b => numStrictEq a b
  | .hStr a, .hStr b => a == b
  | .hRef a, .hRef b => a == b
  | _, _ => false

/-- The typeof x === a number test at the heap level. -/
def hNumOf : HVal → Option JSNum
  | .hNum n => some n
  | _ => none

/-- The Array.isArray test at the heap level, yielding the elements of
the array pointed to. -/
def arrElemsH (h : Heap) (v : HVal) : Option (List HVal) :=
  match v with
  | .hRef a =>
      match readAddr h a with
      | some (.hArr elems) => some elems
      | _ => none
  | _ => none

/-- String coercion of a primitive element (used by the tags
comparison; tag arrays of the record domain hold only strings, where
this coincides with JavaScript). -/
def hPrimToString : HVal → String
  | .hNull => "null"
  | .hUndefined => "undefined"
  | .hBool b => if b then "true" else "false"
  | .hNum n => jsNumToString n
  | .hStr s => s
  | .hRef _ => "[ref]"

/-- Sort key of a tags element under the default sort comparator,
reading referenced nodes shallowly; exact for the primitive elements
of the record domain. -/
def hvalSortKey (h : Heap) (v : HVal) : String :=
  match v with
  | .hRef a =>
      match readAddr h a with
      | some (.hDate t) => "Date:" ++ toString t
      | some (.hArr elems) => String.intercalate "," (elems.map hPrimToString)
      | some (.hObj _) => "[object Object]"
      | none => ""
  | _ => hPrimToString v

/-- Comparator order of the default array sort at the heap level. -/
def hSortLE (h : Heap) (a b : HVal) : Bool :=
  match a, b with
  | .hUndefined, _ => false
  | _, .hUndefined => true
  | _, _ => decide (hvalSortKey h a ≤ hvalSortKey h b)

/-- Stable insertion for the heap-level sort of a copied tags array. -/
def hInsertSorted (h : Heap) (x : HVal) : List HVal → List HVal
  | [] => [x]
  | y :: ys => if hSortLE h x y then x :: y :: ys else y :: hInsertSorted h x ys

/-- The [...xs].sort() of the source at the heap level: sorting a
fresh copy of the element list, leaving the heap untouched. -/
def hSortTags (h : Heap) : List HVal → List HVal
  | [] => []
  | x :: xs => hInsertSorted h x (hSortTags h xs)

/-- JSON token of a tags element, reading referenced nodes shallowly;
injective on the primitive elements of the record domain, so
comparing token lists decides JSON.stringify equality there.  All
reads, no writes: the comparison never mutates the heap, and the frame
theorem below holds on both branches of the comparison. -/
def hJsonTok (h : Heap) (v : HVal) : String :=
  match v with
  | .hNull => "null"
  | .hUndefined => "null"
  | .hBool b => if b then "true" else "false"
  | .hNum n =>
      match n with
      | .num _ => jsNumToString n
      | _ => "null"
  | .hStr s => "\x22" ++ s ++ "\x22"
  | .hRef a =>
      match readAddr h a with
      | some (.hDate t) => "\x22Date:" ++ toString t ++ "\x22"
      | some (.hArr elems) => "[" ++ String.intercalate "," (elems.map hPrimToString) ++ "]"
      | some (.hObj _) => "\x7bobj\x7d"
      | none => ""

/-- The order-insensitive tags comparison of the merge loop at the
heap level: serialized forms of the two sorted copies. -/
def hTagsContentEqual (h : Heap) (newTags oldTags : List HVal) : Bool :=
  (hSortTags h newTags).map (hJsonTok h) == (hSortTags h oldTags).map (hJsonTok h)

/-- One element of the tags array fails the check when it is not an
alphanumeric string (references are never strings). -/
def hTagBad : HVal → Bool
  | .hStr s => !(isAlnumTag s)
  | _ => true

/-- ValidationResult at the heap level; the record field holds the
candidate value itself (the source returns the same object reference,
not a copy). -/
structure ValidationResultH where
  isValid : Bool
  record : Option HVal := none
  errors : Option (List String) := none
deriving DecidableEq, Repr

/-- UpdateResult at the heap level. -/
structure UpdateResultH where
  isValid : Bool
  record : Option HVal := none
  errors : Option (List String) := none
deriving DecidableEq, Repr

/-- validateRecord at the heap level: the same checks as the
value-level transcription, with the price rounding performed as a
write into the heap on the candidate object itself. -/
def validateRecordH (h : Heap) (record : HVal) : Heap × ValidationResultH :=
  if jsTypeofH record != "object" || record == .hNull then
    (h, { isValid := false, errors := some ["Record must be an object."] })
  else
    let e1 : List String :=
      match getPropH h record "id" with
      | .hStr s =>
          if (jsTrim s).data.length == 0 then ["ID is required and must be a string."] else []
      | _ => ["ID is required and must be a string."]
    let e2 : List String :=
      match getPropH h record "name" with
      | .hStr s =>
          if (jsTrim s).data.length == 0 then
            ["Name is required and must be a non-empty string."]
          else []
      | _ => ["Name is required and must be a non-empty string."]
    let step3 : List String × Heap :=
      match getPropH h record "price" with
      | .hNum n =>
          if jsIsNaN n then (["Price is required and must be a number."], h)
          else ([], writePropH h record "price" (.hNum (round2 n)))
      | _ => (["Price is required and must be a number."], h)
    let h1 := step3.2
    let e4 : List String :=
      match arrElemsH h1 (getPropH h1 record "tags") with
      | some tags =>
          if tags.any hTagBad then ["All tags must be alphanumeric strings."] else []
      | none => ["Tags are required and must be an array."]
    let errors := e1 ++ e2 ++ step3.1 ++ e4
    if errors.length > 0 then
      (h1, { isValid := false, errors := some errors })
    else
      (h1, { isValid := true, record := some record })

/-- One iteration of the merge loop at the heap level, writing into
the copy at address c; the if / else-if / else chain of the source. -/
def applyOneUpdateH (h : Heap) (c : Addr) (key : String) (newValue : HVal) : Heap :=
  let oldValue := getFieldH h c key
  if key = "price" then
    match hNumOf newValue, hNumOf oldValue with
    | some newN, some oldN =>
        if numStrictEq (round2 newN) (round2 oldN) then h
        else writeFieldH h c key newValue
    | _, _ =>
        if hStrictEq newValue oldValue then h else writeFieldH h c key newValue
  else if key = "tags" then
    match arrElemsH h newValue, arrElemsH h oldValue with
    | some newTags, some oldTags =>
        if hTagsContentEqual h newTags oldTags then h
        else writeFieldH h c key newValue
    | _, _ =>
        if hStrictEq newValue oldValue then h else writeFieldH h c key newValue
  else if hStrictEq newValue oldValue then h else writeFieldH h c key newValue

/-- The merge loop folded over the own enumerable properties of the
change set. -/
def applyUpdatesH (h : Heap) (c : Addr) : List (String × HVal) → Heap
  | [] => h
  | (k, v) :: rest => applyUpdatesH (applyOneUpdateH h c k v) c rest

/-- Own enumerable properties of the object at an address (the keys
the for-in loop of the source visits; the loop never writes to the
change set, so reading them up front is equivalent to reading them
iteration by iteration). -/
def objFieldsH (h : Heap) (a : Addr) : List (String × HVal) :=
  match readAddr h a with
  | some (.hObj fields) => fields
  | _ => []

/-- deepCopy at the heap level, over a work list of values, with fuel
for termination (any fuel at least the size of the copied tree
suffices; the source recursion would not terminate on a cyclic input
either).  Primitives pass through; a Date is rebuilt from its time at
a fresh address; an array is copied element-wise into a fresh node; a
plain object is copied own property by own property into a fresh
node. -/
def deepCopyManyH : Nat → Heap → List HVal → Option (Heap × List HVal)
  | 0, _, _ => none
  | _ + 1, h, [] => some (h, [])
  | fuel + 1, h, v :: vs =>
      match v with
      | .hRef a =>
          match readAddr h a with
          | none => none
          | some (.hDate t) =>
              let p := allocNode h (.hDate t)
              match deepCopyManyH fuel p.1 vs with
              | none => none
              | some (h2, vs2) => some (h2, .hRef p.2 :: vs2)
          | some (.hArr elems) =>
              match deepCopyManyH fuel h elems with
              | none => none
              | some (h1, elems2) =>
                  let p := allocNode h1 (.hArr elems2)
                  match deepCopyManyH fuel p.1 vs with
                  | none => none
                  | some (h2, vs2) => some (h2, .hRef p.2 :: vs2)
          | some (.hObj fields) =>
              match deepCopyManyH fuel h (fields.map Prod.snd) with
              | none => none
              | some (h1, vals2) =>
                  let p := allocNode h1 (.hObj (List.zip (fields.map Prod.fst) vals2))
                  match deepCopyManyH fuel p.1 vs with
                  | none => none
                  | some (h2, vs2) => some (h2, .hRef p.2 :: vs2)
      | w =>
          match deepCopyManyH fuel h vs with
          | none => none
          | some (h2, vs2) => some (h2, w :: vs2)

/-- deepCopy of a single value at the heap level. -/
def deepCopyH (fuel : Nat) (h : Heap) (v : HVal) : Option (Heap × HVal) :=
  match deepCopyManyH fuel h [v] with
  | some (h2, [v2]) => some (h2, v2)
  | _ => none

/-- updateRecordWithValidation at the heap level: deep-copy the
record, stamp the copy's updatedAt with a freshly allocated Date
carrying the call time, fold the merge loop over the own properties of
the change set, then validate the copy.  The fuel only bounds the deep
copy. -/
def updateRecordWithValidationH (fuel : Nat) (h : Heap) (cur upd : Addr) (now : Int) :
    Option (Heap × UpdateResultH) :=
  match deepCopyH fuel h (.hRef cur) with
  | none => none
  | some (h1, .hRef c) =>
      let p := allocNode h1 (.hDate now)
      let h2 := writeFieldH p.1 c "updatedAt" (.hRef p.2)
      let h3 := applyUpdatesH h2 c (objFieldsH h2 upd)
      let step := validateRecordH h3 (.hRef c)
      if !step.2.isValid then
        some (step.1, { isValid := false, errors := step.2.errors })
      else
        some (step.1, { isValid := true, record := step.2.record })
  | some (_, _) => none

/-- Read the value tree rooted at the given values out of the heap, as
a value-level JSVal tree, with fuel (sufficient for any tree that fits
in the fuel); used to state that the base record deep-equals its
former self after an update. -/
def readTreeManyH : Nat → Heap → List HVal → Option (List JSVal)
  | 0, _, _ => none
  | _ + 1, _, [] => some []
  | fuel + 1, h, v :: vs =>
      match v with
      | .hNull =>
          match readTreeManyH fuel h vs with
          | some ts => some (.vNull :: ts)
          | none => none
      | .hUndefined =>
          match readTreeManyH fuel h vs with
          | some ts => some (.vUndefined :: ts)
          | none => none
      | .hBool b =>
          match readTreeManyH fuel h vs with
          | some ts => some (.vBool b :: ts)
          | none => none
      | .hNum n =>
          match readTreeManyH fuel h vs with
          | some ts => some (.vNum n :: ts)
          | none => none
      | .hStr s =>
          match readTreeManyH fuel h vs with
          | some ts => some (.vStr s :: ts)
          | none => none
      | .hRef a =>
          match readAddr h a with
          | none => none
          | some (.hDate t) =>
              match readTreeManyH fuel h vs with
              | some ts => some (.vDate t :: ts)
              | none => none
          | some (.hArr elems) =>
              match readTreeManyH fuel h elems with
              | none => none
              | some es =>
                  match readTreeManyH fuel h vs with
                  | some ts => some (.vArr es :: ts)
                  | none => none
          | some (.hObj fields) =>
              match readTreeManyH fuel h (fields.map Prod.snd) with
              | none => none
              | some ws =>
                  match readTreeManyH fuel h vs with
                  | some ts => some (.vObj (List.zip (fields.map Prod.fst) ws) :: ts)
                  | none => none

/-- Read the value tree rooted at one value. -/
def readTreeH (fuel : Nat) (h : Heap) (v : HVal) : Option JSVal :=
  match readTreeManyH fuel h [v] with
  | some [t] => some t
  | _ => none

/-- References held by a value. -/
def hvalRefs : HVal → List Addr
  | .hRef a => [a]
  | _ => []

/-- References held by the values of a list. -/
def refsOfVals : List HVal → List Addr
  | [] => []
  | v :: vs => hvalRefs v ++ refsOfVals vs

/-- References held by a node. -/
def nodeRefs : HNode → List Addr
  | .hObj fields => refsOfVals (fields.map Prod.snd)
  | .hArr elems => refsOfVals elems
  | .hDate _ => []

/-- Closedness of a heap: every live address is below the allocation
frontier and every reference stored in a node points below it too -
the invariant every heap reachable by allocation from the empty heap
satisfies. -/
def heapClosed (h : Heap) : Bool :=
  h.mem.all (fun p =>
    decide (p.1 < h.next) && (nodeRefs p.2).all (fun a => decide (a < h.next)))

/-- Evolution of a heap by a computation that allocates fresh nodes
and writes only to addresses at or above the old frontier: the
frontier does not move back, and every address below the old frontier
reads exactly as before. -/
def heapExtends (h0 h1 : Heap) : Prop :=
  h0.next ≤ h1.next ∧ ∀ a, a < h0.next → readAddr h1 a = readAddr h0 a

/-- Proof-side predicate: the value is a number other than NaN (the
exact condition the price check of validateRecord enforces). -/
def isNumberNonNaN : JSVal → Bool
  | .vNum n => !jsIsNaN n
  | _ => false

/-- Proof-side helper: the effect of the price normalization on the
price value itself (numbers are rounded to 2 decimal places, anything
else is left alone - the rounding branch only runs for numbers). -/
def priceRound2Val : JSVal → JSVal
  | .vNum n => .vNum (round2 n)
  | v => v

/-- Proof-side name for the record state updateRecordWithValidation
hands to validateRecord: the deep copy of the record, stamped at
updatedAt, with the merge loop folded over the change set. -/
def mergedRecord (currentRecord updates : List (String × JSVal)) (now : Int) :
    List (String × JSVal) :=
  updates.foldl (fun r kv => applyOneUpdate r kv.1 kv.2)
    (setFieldList (deepCopyFields currentRecord) "updatedAt" (.vDate now))

/-- A concrete closed heap holding the example record at address 0
(its tags array at 1, its two dates at 2 and 3) and a name-only change
set at address 4; used by the closed witness theorems of the
heap-level claims. -/
def exHeap : Heap :=
  { next := 5,
    mem := [(0, .hObj [("id", .hStr "rec123"), ("name", .hStr "Original Product"),
              ("price", .hNum (.num 50)), ("tags", .hRef 1),
              ("createdAt", .hRef 2), ("updatedAt", .hRef 3)]),
            (1, .hArr [.hStr "old", .hStr "product"]),
            (2, .hDate 1000),
            (3, .hDate 1000),
            (4, .hObj [("name", .hStr "New Name")])] }

/-- The heap after running the heap-level update on exHeap with the
change set at address 4 and call time 77: the copy lives at addresses
5 to 8, the fresh stamp at 9, and every old address is untouched. -/
def exHeapAfter : Heap :=
  { next := 10,
    mem := [(9, .hDate 77),
            (8, .hObj [("id", .hStr "rec123"), ("name", .hStr "New Name"),
              ("price", .hNum (.num 50)), ("tags", .hRef 5),
              ("createdAt", .hRef 6), ("updatedAt", .hRef 9)]),
            (7, .hDate 1000),
            (6, .hDate 1000),
            (5, .hArr [.hStr "old", .hStr "product"]),
            (0, .hObj [("id", .hStr "rec123"), ("name", .hStr "Original Product"),
              ("price", .hNum (.num 50)), ("tags", .hRef 1),
              ("createdAt", .hRef 2), ("updatedAt", .hRef 3)]),
            (1, .hArr [.hStr "old", .hStr "product"]),
            (2, .hDate 1000),
            (3, .hDate 1000),
            (4, .hObj [("name", .hStr "New Name")])] }

/-- The result of that run: a valid record, the copy at address 8. -/
def exResAfter : UpdateResultH :=
  { isValid := true, record := some (.hRef 8), errors := none }

/-- A concrete well-formed record, mirroring the initialRecord of the
test suite, used by the closed witness and counterexample theorems. -/
def exRecord : List (String × JSVal) :=
  [("id", .vStr "rec123"), ("name", .vStr "Original Product"),
   ("price", .vNum (.num 50)), ("tags", .vArr [.vStr "old", .vStr "product"]),
   ("createdAt", .vDate 1000), ("updatedAt", .vDate 1000)]

/-! Basic lemmas about property access, property update and the deep
copy. -/

theorem getFieldList_setFieldList_same (fs : List (String × JSVal)) (k : String) (v : JSVal) :
    getFieldList (setFieldList fs k v) k = v := by
  induction fs with
  | nil => simp [setFieldList, getFieldList]
  | cons kv rest ih =>
      by_cases h : kv.1 = k <;>
        simp [setFieldList, getFieldList, h, ih]

theorem getFieldList_setFieldList_ne (fs : List (String × JSVal)) (k k' : String) (v : JSVal)
    (h : k ≠ k') : getFieldList (setFieldList fs k v) k' = getFieldList fs k' := by
  induction fs with
  | nil => simp [setFieldList, getFieldList, h]
  | cons kv rest ih =>
      by_cases hk : kv.1 = k
      · simp [setFieldList, getFieldList, hk, h, Ne.symm h, ih]
      · by_cases hk' : kv.1 = k' <;>
          simp [setFieldList, getFieldList, hk, hk', Ne.symm h, ih]

mutual

theorem deepCopy_eq : (v : JSVal) → deepCopy v = v
  | .vNull => rfl
  | .vUndefined => rfl
  | .vBool _ => rfl
  | .vNum _ => rfl
  | .vStr _ => rfl
  | .vDate _ => rfl
  | .vArr xs => by simp [deepCopy, deepCopyList_eq xs]
  | .vObj fs => by simp [deepCopy, deepCopyFields_eq fs]

theorem deepCopyList_eq : (xs : List JSVal) → deepCopyList xs = xs
  | [] => rfl
  | x :: xs => by simp [deepCopyList, deepCopy_eq x, deepCopyList_eq xs]

theorem deepCopyFields_eq : (kvs : List (String × JSVal)) → deepCopyFields kvs = kvs
  | [] => rfl
  | kv :: kvs => by simp [deepCopyFields, deepCopy_eq kv.2, deepCopyFields_eq kvs]

end

/-! Rounding lemmas. -/

theorem round2q_idem (q : ℚ) : round2q (round2q q) = round2q q := by
  unfold round2q
  have h1 : ((⌊q * 100 + 1 / 2⌋ : ℤ) : ℚ) / 100 * 100 + 1 / 2 =
      ((⌊q * 100 + 1 / 2⌋ : ℤ) : ℚ) + 1 / 2 := by
    field_simp
  have h2 : ⌊((⌊q * 100 + 1 / 2⌋ : ℤ) : ℚ) + 1 / 2⌋ = ⌊q * 100 + 1 / 2⌋ + ⌊(1 / 2 : ℚ)⌋ :=
    Int.floor_int_add _ _
  have h3 : ⌊(1 / 2 : ℚ)⌋ = 0 := by norm_num
  rw [h1, h2, h3, add_zero]

theorem round2_idem (n : JSNum) : round2 (round2 n) = round2 n := by
  cases n <;> simp [round2, round2q_idem]

/-! Shape analysis of validateRecord. -/

theorem priceStep_objNum {fs : List (String × JSVal)} {n : JSNum}
    (hp : getFieldList fs "price" = .vNum n) (hn : jsIsNaN n = false) :
    priceStep (.vObj fs) = ([], .vObj (setFieldList fs "price" (.vNum (round2 n)))) := by
  simp [priceStep, getField, hp, hn, setField]

/-- Elimination form of a successful validation: the candidate must
have been a plain object with a non-NaN numeric price field, every
field check passed, and the result is the candidate with its price
rounded in place. -/
theorem validateRecord_valid_cases {r : JSVal}
    (h : (validateRecord r).1.isValid = true) :
    ∃ fs n, r = .vObj fs ∧ getFieldList fs "price" = .vNum n ∧ jsIsNaN n = false ∧
      idErrorB r = false ∧ nameErrorB r = false ∧
      tagsErrs (.vObj (setFieldList fs "price" (.vNum (round2 n)))) = [] ∧
      validateRecord r =
        ({ isValid := true,
           record := some (.vObj (setFieldList fs "price" (.vNum (round2 n)))),
           errors := none },
         .vObj (setFieldList fs "price" (.vNum (round2 n)))) := by
  cases r with
  | vObj fs =>
      refine ⟨fs, ?_⟩
      cases hp : getFieldList fs "price" with
      | vNum n =>
          cases hn : jsIsNaN n with
          | true =>
              exfalso
              simp [validateRecord, jsTypeof, isNullV, priceStep, getField, hp, hn] at h
          | false =>
              refine ⟨n, rfl, rfl, hn, ?_⟩
              rw [validateRecord] at h ⊢
              simp only [jsTypeof, isNullV, priceStep_objNum hp hn] at h ⊢
              by_cases hid : idErrorB (.vObj fs) <;>
                by_cases hname : nameErrorB (.vObj fs) <;>
                  simp [idErrs, nameErrs, hid, hname] at h ⊢ <;>
                    cases ht : tagsErrs (.vObj (setFieldList fs "price" (.vNum (round2 n)))) <;>
                      simp [ht] at h ⊢
      | vNull => exfalso; simp [validateRecord, jsTypeof, isNullV, priceStep, getField, hp] at h
      | vUndefined => exfalso; simp [validateRecord, jsTypeof, isNullV, priceStep, getField, hp] at h
      | vBool b => exfalso; simp [validateRecord, jsTypeof, isNullV, priceStep, getField, hp] at h
      | vStr s => exfalso; simp [validateRecord, jsTypeof, isNullV, priceStep, getField, hp] at h
      | vDate t => exfalso; simp [validateRecord, jsTypeof, isNullV, priceStep, getField, hp] at h
      | vArr xs => exfalso; simp [validateRecord, jsTypeof, isNullV, priceStep, getField, hp] at h
      | vObj gs => exfalso; simp [validateRecord, jsTypeof, isNullV, priceStep, getField, hp] at h
  | vNull => exfalso; simp [validateRecord, jsTypeof, isNullV] at h
  | vUndefined => exfalso; simp [validateRecord, jsTypeof, isNullV] at h
  | vBool b => exfalso; simp [validateRecord, jsTypeof, isNullV] at h
  | vNum n => exfalso; simp [validateRecord, jsTypeof, isNullV] at h
  | vStr s => exfalso; simp [validateRecord, jsTypeof, isNullV] at h
  | vDate t => exfalso; simp [validateRecord, jsTypeof, isNullV, priceStep, getField] at h
  | vArr xs => exfalso; simp [validateRecord, jsTypeof, isNullV, priceStep, getField] at h

theorem setFieldList_setFieldList (fs : List (String × JSVal)) (k : String) (v w : JSVal) :
    setFieldList (setFieldList fs k v) k w = setFieldList fs k w := by
  induction fs with
  | nil => simp [setFieldList]
  | cons kv rest ih =>
      by_cases h : kv.1 = k <;> simp [setFieldList, h, ih]

theorem jsIsNaN_round2 (n : JSNum) : jsIsNaN (round2 n) = jsIsNaN n := by
  cases n <;> simp [round2, jsIsNaN]

theorem idErrorB_congr {fs gs : List (String × JSVal)}
    (h : getFieldList fs "id" = getFieldList gs "id") :
    idErrorB (.vObj fs) = idErrorB (.vObj gs) := by
  simp [idErrorB, getField, h]

theorem nameErrorB_congr {fs gs : List (String × JSVal)}
    (h : getFieldList fs "name" = getFieldList gs "name") :
    nameErrorB (.vObj fs) = nameErrorB (.vObj gs) := by
  simp [nameErrorB, getField, h]

theorem tagsErrs_congr {fs gs : List (String × JSVal)}
    (h : getFieldList fs "tags" = getFieldList gs "tags") :
    tagsErrs (.vObj fs) = tagsErrs (.vObj gs) := by
  simp [tagsErrs, getField, h]

/-- Construction form of a successful validation of a plain object. -/
theorem validateRecord_obj_valid_build {fs : List (String × JSVal)} {n : JSNum}
    (hp : getFieldList fs "price" = .vNum n) (hn : jsIsNaN n = false)
    (hid : idErrorB (.vObj fs) = false) (hname : nameErrorB (.vObj fs) = false)
    (htags : tagsErrs (.vObj (setFieldList fs "price" (.vNum (round2 n)))) = []) :
    validateRecord (.vObj fs) =
      ({ isValid := true,
         record := some (.vObj (setFieldList fs "price" (.vNum (round2 n)))),
         errors := none },
       .vObj (setFieldList fs "price" (.vNum (round2 n)))) := by
  rw [validateRecord]
  simp [jsTypeof, isNullV, priceStep_objNum hp hn, idErrs, nameErrs, hid, hname, htags]

/-- The final state of the candidate is the output of the price block,
whether validation succeeds or fails. -/
theorem validateRecord_snd_obj (fs : List (String × JSVal)) :
    (validateRecord (.vObj fs)).2 = (priceStep (.vObj fs)).2 := by
  rw [validateRecord]
  split
  · simp_all [jsTypeof, isNullV]
  · dsimp only
    split <;> rfl

/-- The merge loop leaves properties alone whose key it does not
process. -/
theorem applyOneUpdate_getField_ne (fs : List (String × JSVal)) (key : String)
    (nv : JSVal) (k : String) (h : k ≠ key) :
    getFieldList (applyOneUpdate fs key nv) k = getFieldList fs k := by
  have hss : ∀ v, getFieldList (setFieldList fs key v) k = getFieldList fs k :=
    fun v => getFieldList_setFieldList_ne _ _ _ _ (Ne.symm h)
  rw [applyOneUpdate]
  by_cases hp : key = "price"
  · subst hp
    rw [if_pos rfl]
    cases jsNumOf nv <;> cases jsNumOf (getFieldList fs "price") <;>
      simp only [applyOtherKey] <;> split <;> first | rfl | exact hss _
  · rw [if_neg hp]
    by_cases ht : key = "tags"
    · subst ht
      rw [if_pos rfl]
      cases jsArrOf nv <;> cases jsArrOf (getFieldList fs "tags") <;>
        simp only [applyOtherKey] <;> split <;> first | rfl | exact hss _
    · rw [if_neg ht]
      simp only [applyOtherKey]
      split
      · rfl
      · exact hss _

/-- Folding the merge loop over a change set leaves properties alone
whose key does not occur in the change set. -/
theorem getFieldList_foldl_applyOneUpdate {us : List (String × JSVal)}
    {fs : List (String × JSVal)} {k : String} (h : k ∉ us.map Prod.fst) :
    getFieldList (us.foldl (fun r kv => applyOneUpdate r kv.1 kv.2) fs) k =
      getFieldList fs k := by
  induction us generalizing fs with
  | nil => rfl
  | cons kv rest ih =>
      simp only [List.map_cons, List.mem_cons, not_or] at h
      rw [List.foldl_cons, ih h.2, applyOneUpdate_getField_ne _ _ _ _ h.1]

/-- updateRecordWithValidation, written through the mergedRecord
abbreviation. -/
theorem updateRecordWithValidation_def (cur us : List (String × JSVal)) (now : Int) :
    updateRecordWithValidation cur us now =
      if !(validateRecord (.vObj (mergedRecord cur us now))).1.isValid then
        { isValid := false,
          errors := (validateRecord (.vObj (mergedRecord cur us now))).1.errors }
      else
        { isValid := true,
          record := (validateRecord (.vObj (mergedRecord cur us now))).1.record } := rfl

/-- A returned record means the validation of the merged copy
succeeded and returned exactly that record. -/
theorem update_record_some {cur us : List (String × JSVal)} {now : Int} {r : JSVal}
    (h : (updateRecordWithValidation cur us now).record = some r) :
    (validateRecord (.vObj (mergedRecord cur us now))).1.isValid = true ∧
    (validateRecord (.vObj (mergedRecord cur us now))).1.record = some r := by
  rw [updateRecordWithValidation_def] at h
  cases hv : (validateRecord (.vObj (mergedRecord cur us now))).1.isValid with
  | false => rw [hv] at h; simp at h
  | true => rw [hv] at h; simp at h; exact ⟨rfl, h⟩

/-! Claim theorems on the value-level embedding. -/

/-- C10: an array passed to validateRecord is not rejected by the
structural object check (typeof of an array is the string "object"):
it proceeds to the field checks and fails with exactly the four
field-level errors for id, name, price and tags, and the candidate is
returned unmutated. -/
theorem validateRecord_array_four_field_errors (xs : List JSVal) :
    validateRecord (.vArr xs) =
      ({ isValid := false,
         record := none,
         errors := some ["ID is required and must be a string.",
           "Name is required and must be a non-empty string.",
           "Price is required and must be a number.",
           "Tags are required and must be an array."] }, .vArr xs) := by
  rw [validateRecord]
  simp [jsTypeof, isNullV, idErrs, nameErrs, priceStep, tagsErrs, idErrorB,
    nameErrorB, getField]

/-- C3 counterexample: a record whose price is positive infinity is
accepted by validateRecord with the infinite price kept (typeof of
Infinity is the string "number" and isNaN(Infinity) is false), against
the claim that only finite prices validate and that an infinite price
draws a price error. -/
theorem validateRecord_accepts_infinity :
    (validateRecord (.vObj [("id", .vStr "a"), ("name", .vStr "n"),
      ("price", .vNum (.inf true)), ("tags", .vArr [])])).1.isValid = true ∧
    (validateRecord (.vObj [("id", .vStr "a"), ("name", .vStr "n"),
      ("price", .vNum (.inf true)), ("tags", .vArr [])])).1.record.map
        (fun r => getField r "price") = some (.vNum (.inf true)) := by
  with_unfolding_all exact ⟨rfl, rfl⟩

/-- C3 (amended): validateRecord returns a valid result only when the
price field holds a numeric value other than NaN; the two infinities
pass this check and are accepted, not rejected. -/
theorem validateRecord_valid_price_number {r : JSVal}
    (h : (validateRecord r).1.isValid = true) :
    isNumberNonNaN (getField r "price") = true := by
  obtain ⟨fs, n, hr, hp, hn, _⟩ := validateRecord_valid_cases h
  subst hr
  simp [getField, isNumberNonNaN, hp, hn]

/-- Witness for the amended C3 theorem at a concrete valid record. -/
theorem validateRecord_valid_price_number_witness :
    isNumberNonNaN (getField (.vObj [("id", .vStr "a"), ("name", .vStr "n"),
      ("price", .vNum (.num 5)), ("tags", .vArr [])]) "price") = true :=
  validateRecord_valid_price_number
    (r := .vObj [("id", .vStr "a"), ("name", .vStr "n"),
      ("price", .vNum (.num 5)), ("tags", .vArr [])])
    (by with_unfolding_all rfl)

/-- C5: on every record that validateRecord accepts, the record of the
returned result carries the original price rounded to 2 decimal
places (the hypothesis is exactly that isValid is true). -/
theorem validateRecord_price_rounded {r : JSVal}
    (h : (validateRecord r).1.isValid = true) :
    (validateRecord r).1.record.map (fun rec => getField rec "price") =
      some (priceRound2Val (getField r "price")) := by
  obtain ⟨fs, n, hr, hp, hn, hid, hname, htags, heq⟩ := validateRecord_valid_cases h
  subst hr
  rw [heq]
  simp [getField, hp, priceRound2Val, getFieldList_setFieldList_same]

/-- Witness for the C5 theorem at a concrete record with a long
price. -/
theorem validateRecord_price_rounded_witness :
    (validateRecord (.vObj [("id", .vStr "a"), ("name", .vStr "n"),
      ("price", .vNum (.num (1234567/10000))), ("tags", .vArr [])])).1.record.map
        (fun rec => getField rec "price") =
      some (priceRound2Val (getField (.vObj [("id", .vStr "a"), ("name", .vStr "n"),
        ("price", .vNum (.num (1234567/10000))), ("tags", .vArr [])]) "price")) :=
  validateRecord_price_rounded
    (r := .vObj [("id", .vStr "a"), ("name", .vStr "n"),
      ("price", .vNum (.num (1234567/10000))), ("tags", .vArr [])])
    (by with_unfolding_all rfl)

/-- C6: for any plain-object candidate whose price field is a numeric
value other than NaN, validateRecord rewrites exactly the price field
of the candidate in place to its value rounded to 2 decimal places -
stated with no hypothesis on the verdict, so the rewrite also happens
when validation of other fields fails - and every other field of the
candidate is left as it was. -/
theorem validateRecord_price_mutation (fs : List (String × JSVal)) (n : JSNum)
    (hp : getFieldList fs "price" = .vNum n) (hn : jsIsNaN n = false) :
    (validateRecord (.vObj fs)).2 = .vObj (setFieldList fs "price" (.vNum (round2 n))) ∧
    (∀ k, k ≠ "price" →
      getField ((validateRecord (.vObj fs)).2) k = getField (.vObj fs) k) := by
  have h2 := validateRecord_snd_obj fs
  rw [priceStep_objNum hp hn] at h2
  refine ⟨h2, fun k hk => ?_⟩
  rw [h2]
  simp [getField, getFieldList_setFieldList_ne _ _ _ _ (Ne.symm hk)]

/-- Witness for the C6 theorem at a concrete record that fails the
name check but still gets its price rounded in place. -/
theorem validateRecord_price_mutation_witness :
    (validateRecord (.vObj [("id", .vStr "a"), ("name", .vStr ""),
      ("price", .vNum (.num (1234567/10000))), ("tags", .vArr [])])).2 =
      .vObj (setFieldList [("id", .vStr "a"), ("name", .vStr ""),
        ("price", .vNum (.num (1234567/10000))), ("tags", .vArr [])] "price"
        (.vNum (round2 (.num (1234567/10000))))) ∧
    getField ((validateRecord (.vObj [("id", .vStr "a"), ("name", .vStr ""),
        ("price", .vNum (.num (1234567/10000))), ("tags", .vArr [])])).2) "name" =
      getField (.vObj [("id", .vStr "a"), ("name", .vStr ""),
        ("price", .vNum (.num (1234567/10000))), ("tags", .vArr [])]) "name" :=
  ⟨(validateRecord_price_mutation
      [("id", .vStr "a"), ("name", .vStr ""),
       ("price", .vNum (.num (1234567/10000))), ("tags", .vArr [])]
      (.num (1234567/10000)) (by with_unfolding_all rfl) rfl).1,
   (validateRecord_price_mutation
      [("id", .vStr "a"), ("name", .vStr ""),
       ("price", .vNum (.num (1234567/10000))), ("tags", .vArr [])]
      (.num (1234567/10000)) (by with_unfolding_all rfl) rfl).2 "name" (by decide)⟩

/-- C8: validation is idempotent on accepted records: if validateRecord
accepts r and hands back record r1, then validating r1 produces the
identical result (and identical final candidate state) - re-rounding
the already-rounded price changes nothing and every check passes
again. -/
theorem validateRecord_idempotent {r r1 : JSVal}
    (h : (validateRecord r).1.isValid = true)
    (hr : (validateRecord r).1.record = some r1) :
    validateRecord r1 = validateRecord r := by
  obtain ⟨fs, n, hobj, hp, hn, hid, hname, htags, heq⟩ := validateRecord_valid_cases h
  subst hobj
  rw [heq] at hr
  simp only [Option.some.injEq] at hr
  subst hr
  have hpX : getFieldList (setFieldList fs "price" (.vNum (round2 n))) "price" =
      .vNum (round2 n) := getFieldList_setFieldList_same _ _ _
  have hnX : jsIsNaN (round2 n) = false := by rw [jsIsNaN_round2]; exact hn
  have hidX : idErrorB (.vObj (setFieldList fs "price" (.vNum (round2 n)))) = false := by
    rw [idErrorB_congr (getFieldList_setFieldList_ne _ _ _ _ (by decide))]; exact hid
  have hnameX : nameErrorB (.vObj (setFieldList fs "price" (.vNum (round2 n)))) = false := by
    rw [nameErrorB_congr (getFieldList_setFieldList_ne _ _ _ _ (by decide))]; exact hname
  have htagsX : tagsErrs (.vObj (setFieldList (setFieldList fs "price" (.vNum (round2 n)))
      "price" (.vNum (round2 (round2 n))))) = [] := by
    rw [round2_idem, setFieldList_setFieldList]; exact htags
  rw [validateRecord_obj_valid_build hpX hnX hidX hnameX htagsX, heq]
  simp [round2_idem, setFieldList_setFieldList]

/-- Witness for the C8 theorem at a concrete record whose price gets
rounded on the first validation. -/
theorem validateRecord_idempotent_witness :
    validateRecord (.vObj [("id", .vStr "a"), ("name", .vStr "n"),
      ("price", .vNum (.num (12346/100))), ("tags", .vArr [])]) =
    validateRecord (.vObj [("id", .vStr "a"), ("name", .vStr "n"),
      ("price", .vNum (.num (1234567/10000))), ("tags", .vArr [])]) :=
  validateRecord_idempotent
    (r := .vObj [("id", .vStr "a"), ("name", .vStr "n"),
      ("price", .vNum (.num (1234567/10000))), ("tags", .vArr [])])
    (by with_unfolding_all rfl) (by with_unfolding_all rfl)

/-- C2 counterexample: a change set that smuggles in an id key
overwrites the id of the copy - the merge loop applies every own key
of the change set without special-casing id or createdAt - so a
successful update returns a record whose id differs from the id of the
base. -/
theorem update_overwrites_id_counterexample :
    (updateRecordWithValidation exRecord [("id", .vStr "other")] 77).isValid = true ∧
    (updateRecordWithValidation exRecord [("id", .vStr "other")] 77).record.map
      (fun r => getField r "id") = some (.vStr "other") ∧
    getFieldList exRecord "id" = .vStr "rec123" ∧
    JSVal.vStr "other" ≠ JSVal.vStr "rec123" :=
  ⟨by with_unfolding_all rfl, by with_unfolding_all rfl, by with_unfolding_all rfl, by simp⟩

/-- C2 (amended): when the change set contains neither an id nor a
createdAt key - the shape the UpdatedRecord type intends - a
successful update preserves both fields of the base record; a change
set that does carry one of these keys overwrites it, as the
counterexample shows. -/
theorem update_preserves_id_createdAt {cur us : List (String × JSVal)} {now : Int}
    {r : JSVal}
    (hid : "id" ∉ us.map Prod.fst) (hcr : "createdAt" ∉ us.map Prod.fst)
    (hrec : (updateRecordWithValidation cur us now).record = some r) :
    getField r "id" = getFieldList cur "id" ∧
    getField r "createdAt" = getFieldList cur "createdAt" := by
  obtain ⟨hval, hrecord⟩ := update_record_some hrec
  obtain ⟨fs, n, hobj, hp, hn, _, _, _, heq⟩ := validateRecord_valid_cases hval
  obtain rfl : mergedRecord cur us now = fs := by injection hobj
  rw [heq] at hrecord
  simp only [Option.some.injEq] at hrecord
  subst hrecord
  constructor
  · simp only [getField]
    rw [getFieldList_setFieldList_ne _ _ _ _ (by decide), mergedRecord,
      getFieldList_foldl_applyOneUpdate hid, deepCopyFields_eq,
      getFieldList_setFieldList_ne _ _ _ _ (by decide)]
  · simp only [getField]
    rw [getFieldList_setFieldList_ne _ _ _ _ (by decide), mergedRecord,
      getFieldList_foldl_applyOneUpdate hcr, deepCopyFields_eq,
      getFieldList_setFieldList_ne _ _ _ _ (by decide)]

/-- Witness for the amended C2 theorem: a name-only update of the
concrete record keeps id and createdAt. -/
theorem update_preserves_id_createdAt_witness :
    getField (.vObj [("id", .vStr "rec123"), ("name", .vStr "New Name"),
      ("price", .vNum (.num 50)), ("tags", .vArr [.vStr "old", .vStr "product"]),
      ("createdAt", .vDate 1000), ("updatedAt", .vDate 77)]) "id" =
      getFieldList exRecord "id" ∧
    getField (.vObj [("id", .vStr "rec123"), ("name", .vStr "New Name"),
      ("price", .vNum (.num 50)), ("tags", .vArr [.vStr "old", .vStr "product"]),
      ("createdAt", .vDate 1000), ("updatedAt", .vDate 77)]) "createdAt" =
      getFieldList exRecord "createdAt" :=
  @update_preserves_id_createdAt exRecord [("name", .vStr "New Name")] 77
    (.vObj [("id", .vStr "rec123"), ("name", .vStr "New Name"),
      ("price", .vNum (.num 50)), ("tags", .vArr [.vStr "old", .vStr "product"]),
      ("createdAt", .vDate 1000), ("updatedAt", .vDate 77)])
    (by decide) (by decide) (by with_unfolding_all rfl)

/-- C4 counterexample: when the change set itself carries an updatedAt
key, the merge loop overwrites the fresh stamp (the old value is the
newly allocated Date object, strictly unequal to any value a change
set can hold), so the success-path record does not carry the call-time
stamp: with now = 77 the returned updatedAt is the Date 5 from the
change set. -/
theorem update_updatedAt_overwritten_counterexample :
    (updateRecordWithValidation exRecord [("updatedAt", .vDate 5)] 77).isValid = true ∧
    (updateRecordWithValidation exRecord [("updatedAt", .vDate 5)] 77).record.map
      (fun r => getField r "updatedAt") = some (.vDate 5) ∧
    JSVal.vDate 5 ≠ JSVal.vDate 77 :=
  ⟨by with_unfolding_all rfl, by with_unfolding_all rfl, by simp⟩

/-- C4 (amended): the copy is stamped with the call-time timestamp
before the merge loop runs, so whenever the change set does not itself
contain an updatedAt key - in particular for the empty change set -
the record returned on the success path carries updatedAt equal to the
call-time now; a change set carrying updatedAt overwrites the stamp,
as the counterexample shows. -/
theorem update_stamps_updatedAt {cur us : List (String × JSVal)} {now : Int} {r : JSVal}
    (hupd : "updatedAt" ∉ us.map Prod.fst)
    (hrec : (updateRecordWithValidation cur us now).record = some r) :
    getField r "updatedAt" = .vDate now := by
  obtain ⟨hval, hrecord⟩ := update_record_some hrec
  obtain ⟨fs, n, hobj, hp, hn, _, _, _, heq⟩ := validateRecord_valid_cases hval
  obtain rfl : mergedRecord cur us now = fs := by injection hobj
  rw [heq] at hrecord
  simp only [Option.some.injEq] at hrecord
  subst hrecord
  simp only [getField]
  rw [getFieldList_setFieldList_ne _ _ _ _ (by decide), mergedRecord,
    getFieldList_foldl_applyOneUpdate hupd,
    getFieldList_setFieldList_same]

/-- Witness for the amended C4 theorem: the empty change set stamps
updatedAt to the call time. -/
theorem update_stamps_updatedAt_witness :
    getField (.vObj [("id", .vStr "rec123"), ("name", .vStr "Original Product"),
      ("price", .vNum (.num 50)), ("tags", .vArr [.vStr "old", .vStr "product"]),
      ("createdAt", .vDate 1000), ("updatedAt", .vDate 77)]) "updatedAt" =
      .vDate 77 :=
  @update_stamps_updatedAt exRecord [] 77
    (.vObj [("id", .vStr "rec123"), ("name", .vStr "Original Product"),
      ("price", .vNum (.num 50)), ("tags", .vArr [.vStr "old", .vStr "product"]),
      ("createdAt", .vDate 1000), ("updatedAt", .vDate 77)])
    (by decide) (by with_unfolding_all rfl)

/-- C7: updating a record that validates successfully and whose tags
are exactly the strings a and b, in that order, with a change set
whose only key is tags carrying b then a, succeeds and returns the
tags of the base in their original order: the sorted contents of the
two arrays coincide, so the merge loop records no change and no write
occurs. -/
theorem update_tags_order_preserved {fs : List (String × JSVal)} {now : Int}
    (hvalid : (validateRecord (.vObj fs)).1.isValid = true)
    (htags : getFieldList fs "tags" = .vArr [.vStr "a", .vStr "b"]) :
    (updateRecordWithValidation fs [("tags", .vArr [.vStr "b", .vStr "a"])] now).isValid
      = true ∧
    (updateRecordWithValidation fs [("tags", .vArr [.vStr "b", .vStr "a"])] now).record.map
      (fun r => getField r "tags") = some (.vArr [.vStr "a", .vStr "b"]) := by
  obtain ⟨fs0, n, hobj, hp, hn, hid, hname, htags0, heq⟩ := validateRecord_valid_cases hvalid
  obtain rfl : fs = fs0 := by injection hobj
  have hfs1tags : getFieldList (setFieldList fs "updatedAt" (.vDate now)) "tags" =
      .vArr [.vStr "a", .vStr "b"] := by
    rw [getFieldList_setFieldList_ne _ _ _ _ (by decide), htags]
  have hteq : tagsContentEqual [.vStr "b", .vStr "a"] [.vStr "a", .vStr "b"] = true := by
    with_unfolding_all rfl
  have hm : mergedRecord fs [("tags", .vArr [.vStr "b", .vStr "a"])] now =
      setFieldList fs "updatedAt" (.vDate now) := by
    rw [mergedRecord, deepCopyFields_eq, List.foldl_cons, List.foldl_nil, applyOneUpdate]
    rw [if_neg (by decide), if_pos rfl, hfs1tags]
    simp only [jsArrOf, hteq, if_true]
  have hp1 : getFieldList (setFieldList fs "updatedAt" (.vDate now)) "price" = .vNum n := by
    rw [getFieldList_setFieldList_ne _ _ _ _ (by decide), hp]
  have hid1 : idErrorB (.vObj (setFieldList fs "updatedAt" (.vDate now))) = false := by
    rw [idErrorB_congr (getFieldList_setFieldList_ne _ _ _ _ (by decide))]; exact hid
  have hname1 : nameErrorB (.vObj (setFieldList fs "updatedAt" (.vDate now))) = false := by
    rw [nameErrorB_congr (getFieldList_setFieldList_ne _ _ _ _ (by decide))]; exact hname
  have hchain : getFieldList (setFieldList (setFieldList fs "updatedAt" (.vDate now))
      "price" (.vNum (round2 n))) "tags" =
      getFieldList (setFieldList fs "price" (.vNum (round2 n))) "tags" := by
    rw [getFieldList_setFieldList_ne _ _ _ _ (by decide),
      getFieldList_setFieldList_ne _ _ _ _ (by decide),
      getFieldList_setFieldList_ne _ _ _ _ (by decide)]
  have htags1 := (tagsErrs_congr hchain).trans htags0
  have hbuild := validateRecord_obj_valid_build hp1 hn hid1 hname1 htags1
  rw [updateRecordWithValidation_def, hm, hbuild]
  refine ⟨rfl, ?_⟩
  show some (getFieldList (setFieldList (setFieldList fs "updatedAt" (.vDate now)) "price"
      (.vNum (round2 n))) "tags") = some (.vArr [.vStr "a", .vStr "b"])
  rw [hchain, getFieldList_setFieldList_ne _ _ _ _ (by decide), htags]

/-- Witness for the C7 theorem at the concrete two-tag record. -/
theorem update_tags_order_preserved_witness :
    (updateRecordWithValidation
      [("id", .vStr "rec123"), ("name", .vStr "Original Product"),
       ("price", .vNum (.num 50)), ("tags", .vArr [.vStr "a", .vStr "b"]),
       ("createdAt", .vDate 1000), ("updatedAt", .vDate 1000)]
      [("tags", .vArr [.vStr "b", .vStr "a"])] 77).isValid = true ∧
    (updateRecordWithValidation
      [("id", .vStr "rec123"), ("name", .vStr "Original Product"),
       ("price", .vNum (.num 50)), ("tags", .vArr [.vStr "a", .vStr "b"]),
       ("createdAt", .vDate 1000), ("updatedAt", .vDate 1000)]
      [("tags", .vArr [.vStr "b", .vStr "a"])] 77).record.map
      (fun r => getField r "tags") = some (.vArr [.vStr "a", .vStr "b"]) :=
  @update_tags_order_preserved
    [("id", .vStr "rec123"), ("name", .vStr "Original Product"),
      ("price", .vNum (.num 50)), ("tags", .vArr [.vStr "a", .vStr "b"]),
      ("createdAt", .vDate 1000), ("updatedAt", .vDate 1000)] 77
    (by with_unfolding_all rfl) (by with_unfolding_all rfl)

/-! Lemmas for the exception-instrumented validator. -/

theorem exceptOkBind {ε α β : Type} (x : α) (f : α → Except ε β) :
    (Except.ok x : Except ε α) >>= f = f x := rfl

theorem exceptMapOk {ε α β : Type} (g : α → β) (x : α) :
    (g <$> (Except.ok x : Except ε α) : Except ε β) = .ok (g x) := rfl

theorem exceptPureEq {ε α : Type} (x : α) : (pure x : Except ε α) = .ok x := rfl

theorem strFieldBadE_obj_id (fs : List (String × JSVal)) :
    strFieldBadE (.vObj fs) "id" = .ok (idErrorB (.vObj fs)) := by
  cases h : getFieldList fs "id" <;>
    simp [strFieldBadE, getFieldE, getField, h, jsTypeof, trimE, idErrorB,
      exceptOkBind, exceptMapOk, exceptPureEq]

theorem strFieldBadE_obj_name (fs : List (String × JSVal)) :
    strFieldBadE (.vObj fs) "name" = .ok (nameErrorB (.vObj fs)) := by
  cases h : getFieldList fs "name" <;>
    simp [strFieldBadE, getFieldE, getField, h, jsTypeof, trimE, nameErrorB,
      exceptOkBind, exceptMapOk, exceptPureEq]

theorem priceCheckE_obj (fs : List (String × JSVal)) :
    priceCheckE (.vObj fs) = .ok (priceStep (.vObj fs)) := by
  cases h : getFieldList fs "price" with
  | vNum n =>
      cases hn : jsIsNaN n <;>
        simp [priceCheckE, getFieldE, getField, h, jsTypeof, isNaNV, hn,
          toFixed2ParseE, priceStep, exceptOkBind, exceptMapOk, exceptPureEq]
  | vNull => simp [priceCheckE, getFieldE, getField, h, jsTypeof, isNaNV, priceStep, exceptOkBind, exceptMapOk, exceptPureEq]
  | vUndefined => simp [priceCheckE, getFieldE, getField, h, jsTypeof, isNaNV, priceStep, exceptOkBind, exceptMapOk, exceptPureEq]
  | vBool b => simp [priceCheckE, getFieldE, getField, h, jsTypeof, isNaNV, priceStep, exceptOkBind, exceptMapOk, exceptPureEq]
  | vStr s => simp [priceCheckE, getFieldE, getField, h, jsTypeof, isNaNV, priceStep, exceptOkBind, exceptMapOk, exceptPureEq]
  | vDate t => simp [priceCheckE, getFieldE, getField, h, jsTypeof, isNaNV, priceStep, exceptOkBind, exceptMapOk, exceptPureEq]
  | vArr xs => simp [priceCheckE, getFieldE, getField, h, jsTypeof, isNaNV, priceStep, exceptOkBind, exceptMapOk, exceptPureEq]
  | vObj gs => simp [priceCheckE, getFieldE, getField, h, jsTypeof, isNaNV, priceStep, exceptOkBind, exceptMapOk, exceptPureEq]

theorem tagsCheckE_obj (gs : List (String × JSVal)) :
    tagsCheckE (.vObj gs) = .ok (tagsErrs (.vObj gs)) := by
  cases h : getFieldList gs "tags" <;>
    simp [tagsCheckE, getFieldE, getField, h, jsArrOf, someTagBadE, tagsErrs,
      exceptOkBind, exceptMapOk, exceptPureEq]

/-- C9: the validator is total and never throws: on every input value,
of any shape, the exception-instrumented transcription returns ok with
exactly the result of the plain validator - each property access and
method call is protected by the preceding type test. -/
theorem validateRecordE_total (v : JSVal) :
    validateRecordE v = .ok (validateRecord v) := by
  cases v with
  | vObj fs =>
      rw [validateRecordE, validateRecord]
      simp only [jsTypeof, isNullV]
      rw [strFieldBadE_obj_id, strFieldBadE_obj_name, priceCheckE_obj]
      cases hps : getFieldList fs "price" with
      | vNum n =>
          cases hn : jsIsNaN n <;>
            · rw [priceStep] at *
              simp [getField, hps, hn, tagsCheckE_obj, idErrs, nameErrs,
                exceptOkBind, exceptMapOk, exceptPureEq, setField]
              try rw [apply_ite Except.ok]
      | vNull =>
          rw [priceStep]
          simp [getField, hps, tagsCheckE_obj, idErrs, nameErrs,
            exceptOkBind, exceptMapOk, exceptPureEq]
      | vUndefined =>
          rw [priceStep]
          simp [getField, hps, tagsCheckE_obj, idErrs, nameErrs,
            exceptOkBind, exceptMapOk, exceptPureEq]
      | vBool b =>
          rw [priceStep]
          simp [getField, hps, tagsCheckE_obj, idErrs, nameErrs,
            exceptOkBind, exceptMapOk, exceptPureEq]
      | vStr s =>
          rw [priceStep]
          simp [getField, hps, tagsCheckE_obj, idErrs, nameErrs,
            exceptOkBind, exceptMapOk, exceptPureEq]
      | vDate t =>
          rw [priceStep]
          simp [getField, hps, tagsCheckE_obj, idErrs, nameErrs,
            exceptOkBind, exceptMapOk, exceptPureEq]
      | vArr xs =>
          rw [priceStep]
          simp [getField, hps, tagsCheckE_obj, idErrs, nameErrs,
            exceptOkBind, exceptMapOk, exceptPureEq]
      | vObj gs =>
          rw [priceStep]
          simp [getField, hps, tagsCheckE_obj, idErrs, nameErrs,
            exceptOkBind, exceptMapOk, exceptPureEq]
  | vNull => rfl
  | vUndefined => rfl
  | vBool b => rfl
  | vNum n => rfl
  | vStr s => rfl
  | vDate t =>
      rw [validateRecordE, validateRecord]
      simp [jsTypeof, isNullV, strFieldBadE, priceCheckE, tagsCheckE, getFieldE,
        getField, idErrorB, nameErrorB, priceStep, tagsErrs, jsArrOf, idErrs,
        nameErrs, exceptOkBind, exceptMapOk, exceptPureEq]
  | vArr xs =>
      rw [validateRecordE, validateRecord]
      simp [jsTypeof, isNullV, strFieldBadE, priceCheckE, tagsCheckE, getFieldE,
        getField, idErrorB, nameErrorB, priceStep, tagsErrs, jsArrOf, idErrs,
        nameErrs, exceptOkBind, exceptMapOk, exceptPureEq]

/-! Frame lemmas for the heap-level embedding: the update runs by
allocating fresh nodes and writing only to addresses at or above the
allocation frontier of the heap it was given, so every pre-existing
address reads as before. -/

theorem heapExtends_refl (h : Heap) : heapExtends h h :=
  ⟨Nat.le_refl _, fun _ _ => rfl⟩

theorem heapExtends_trans {h0 h1 h2 : Heap}
    (e1 : heapExtends h0 h1) (e2 : heapExtends h1 h2) : heapExtends h0 h2 :=
  ⟨Nat.le_trans e1.1 e2.1,
   fun a ha => (e2.2 a (Nat.lt_of_lt_of_le ha e1.1)).trans (e1.2 a ha)⟩

theorem readAddr_alloc_lt {h : Heap} {nd : HNode} {a : Addr} (ha : a < h.next) :
    readAddr (allocNode h nd).1 a = readAddr h a := by
  simp only [allocNode, readAddr, lookupAddr]
  rw [if_neg (Nat.ne_of_gt ha)]

theorem allocNode_extends (h : Heap) (nd : HNode) : heapExtends h (allocNode h nd).1 :=
  ⟨Nat.le_succ _, fun _ ha => readAddr_alloc_lt ha⟩

theorem lookupAddr_map_write (mem : List (Addr × HNode)) (a b : Addr) (nd : HNode)
    (hab : a ≠ b) :
    lookupAddr (mem.map (fun p => if p.1 = b then (b, nd) else p)) a =
      lookupAddr mem a := by
  induction mem with
  | nil => rfl
  | cons p rest ih =>
      obtain ⟨pa, pnd⟩ := p
      simp only [List.map_cons]
      dsimp only
      by_cases hpb : pa = b
      · subst hpb
        rw [if_pos rfl]
        simp only [lookupAddr]
        rw [if_neg (fun hba => hab hba.symm), if_neg (fun hba => hab hba.symm), ih]
      · rw [if_neg hpb]
        simp only [lookupAddr]
        by_cases hpa : pa = a
        · rw [if_pos hpa, if_pos hpa]
        · rw [if_neg hpa, if_neg hpa, ih]

theorem readAddr_write_ne {h : Heap} {b : Addr} {nd : HNode} {a : Addr} (hab : a ≠ b) :
    readAddr (writeAddr h b nd) a = readAddr h a :=
  lookupAddr_map_write h.mem a b nd hab

theorem writeAddr_next (h : Heap) (b : Addr) (nd : HNode) :
    (writeAddr h b nd).next = h.next := rfl

theorem writeAddr_extends {h0 h1 : Heap} {b : Addr} {nd : HNode}
    (he : heapExtends h0 h1) (hb : h0.next ≤ b) :
    heapExtends h0 (writeAddr h1 b nd) :=
  ⟨by rw [writeAddr_next]; exact he.1,
   fun a ha =>
     (readAddr_write_ne (Nat.ne_of_lt (Nat.lt_of_lt_of_le ha hb))).trans (he.2 a ha)⟩

theorem writeFieldH_extends {h0 h1 : Heap} {c : Addr} {k : String} {v : HVal}
    (he : heapExtends h0 h1) (hc : h0.next ≤ c) :
    heapExtends h0 (writeFieldH h1 c k v) := by
  rw [writeFieldH]
  cases hr : readAddr h1 c with
  | none => exact he
  | some nd => cases nd with
      | hObj fields => exact writeAddr_extends he hc
      | hArr elems => exact he
      | hDate t => exact he

theorem applyOneUpdateH_extends {h0 h1 : Heap} {c : Addr} {key : String} {v : HVal}
    (he : heapExtends h0 h1) (hc : h0.next ≤ c) :
    heapExtends h0 (applyOneUpdateH h1 c key v) := by
  rw [applyOneUpdateH]
  by_cases hp : key = "price"
  · rw [if_pos hp]
    cases hNumOf v <;> cases hNumOf (getFieldH h1 c key) <;> dsimp only <;> split <;>
      first | exact he | exact writeFieldH_extends he hc
  · rw [if_neg hp]
    by_cases ht : key = "tags"
    · rw [if_pos ht]
      cases arrElemsH h1 v <;> cases arrElemsH h1 (getFieldH h1 c key) <;> dsimp only <;>
        split <;> first | exact he | exact writeFieldH_extends he hc
    · rw [if_neg ht]
      split
      · exact he
      · exact writeFieldH_extends he hc

theorem applyUpdatesH_extends {h0 : Heap} {c : Addr} :
    ∀ (us : List (String × HVal)) {h1 : Heap},
      heapExtends h0 h1 → h0.next ≤ c → heapExtends h0 (applyUpdatesH h1 c us)
  | [], _, he, _ => he
  | (k, v) :: rest, h1, he, hc =>
      applyUpdatesH_extends rest (applyOneUpdateH_extends he hc) hc

theorem validateRecordH_extends {h0 h1 : Heap} {c : Addr}
    (he : heapExtends h0 h1) (hc : h0.next ≤ c) :
    heapExtends h0 (validateRecordH h1 (.hRef c)).1 := by
  rw [validateRecordH]
  split
  · exact he
  · dsimp only
    split
    · dsimp only
      cases hpv : getPropH h1 (.hRef c) "price" <;> dsimp only
      case hNum n =>
        split
        · exact he
        · exact writeFieldH_extends he hc
      all_goals exact he
    · dsimp only
      cases hpv : getPropH h1 (.hRef c) "price" <;> dsimp only
      case hNum n =>
        split
        · exact he
        · exact writeFieldH_extends he hc
      all_goals exact he

/-- Specification of the heap-level deep copy: it only allocates -
every pre-existing address reads as before - and every reference it
returns is fresh (at or above the old allocation frontier). -/
theorem deepCopyManyH_spec :
    ∀ (fuel : Nat) (h : Heap) (vs : List HVal) (h2 : Heap) (vs2 : List HVal),
      deepCopyManyH fuel h vs = some (h2, vs2) →
      heapExtends h h2 ∧ ∀ a, HVal.hRef a ∈ vs2 → h.next ≤ a := by
  intro fuel
  induction fuel with
  | zero =>
      intro h vs h2 vs2 heq
      simp [deepCopyManyH] at heq
  | succ fuel ih =>
      intro h vs h2 vs2 heq
      cases vs with
      | nil =>
          simp only [deepCopyManyH, Option.some.injEq, Prod.mk.injEq] at heq
          obtain ⟨rfl, rfl⟩ := heq
          exact ⟨heapExtends_refl h, by simp⟩
      | cons v vs =>
          cases v with
          | hRef a =>
              simp only [deepCopyManyH] at heq
              cases hra : readAddr h a with
              | none => rw [hra] at heq; simp at heq
              | some nd =>
                  rw [hra] at heq
                  cases nd with
                  | hDate t =>
                      dsimp only at heq
                      cases hrec : deepCopyManyH fuel (allocNode h (.hDate t)).1 vs with
                      | none => rw [hrec] at heq; simp at heq
                      | some pr =>
                          obtain ⟨h2', vs2'⟩ := pr
                          rw [hrec] at heq
                          simp only [Option.some.injEq, Prod.mk.injEq] at heq
                          obtain ⟨rfl, rfl⟩ := heq
                          obtain ⟨ext, refs⟩ := ih _ _ _ _ hrec
                          refine ⟨heapExtends_trans (allocNode_extends h _) ext,
                            fun b hb => ?_⟩
                          rcases List.mem_cons.mp hb with hb | hb
                          · injection hb with hb'
                            subst hb'
                            exact Nat.le_refl _
                          · exact Nat.le_trans (Nat.le_succ _) (refs b hb)
                  | hArr elems =>
                      dsimp only at heq
                      cases hrec1 : deepCopyManyH fuel h elems with
                      | none => rw [hrec1] at heq; simp at heq
                      | some pr1 =>
                          obtain ⟨h1', elems2⟩ := pr1
                          rw [hrec1] at heq
                          dsimp only at heq
                          cases hrec2 :
                              deepCopyManyH fuel (allocNode h1' (.hArr elems2)).1 vs with
                          | none => rw [hrec2] at heq; simp at heq
                          | some pr2 =>
                              obtain ⟨h2', vs2'⟩ := pr2
                              rw [hrec2] at heq
                              simp only [Option.some.injEq, Prod.mk.injEq] at heq
                              obtain ⟨rfl, rfl⟩ := heq
                              obtain ⟨ext1, _⟩ := ih _ _ _ _ hrec1
                              obtain ⟨ext2, refs2⟩ := ih _ _ _ _ hrec2
                              refine ⟨heapExtends_trans ext1 (heapExtends_trans
                                (allocNode_extends _ _) ext2), fun b hb => ?_⟩
                              rcases List.mem_cons.mp hb with hb | hb
                              · injection hb with hb'
                                subst hb'
                                exact ext1.1
                              · exact Nat.le_trans (Nat.le_trans ext1.1 (Nat.le_succ _))
                                  (refs2 b hb)
                  | hObj fields =>
                      dsimp only at heq
                      cases hrec1 : deepCopyManyH fuel h (fields.map Prod.snd) with
                      | none => rw [hrec1] at heq; simp at heq
                      | some pr1 =>
                          obtain ⟨h1', vals2⟩ := pr1
                          rw [hrec1] at heq
                          dsimp only at heq
                          cases hrec2 : deepCopyManyH fuel
                              (allocNode h1' (.hObj (List.zip (fields.map Prod.fst)
                                vals2))).1 vs with
                          | none => rw [hrec2] at heq; simp at heq
                          | some pr2 =>
                              obtain ⟨h2', vs2'⟩ := pr2
                              rw [hrec2] at heq
                              simp only [Option.some.injEq, Prod.mk.injEq] at heq
                              obtain ⟨rfl, rfl⟩ := heq
                              obtain ⟨ext1, _⟩ := ih _ _ _ _ hrec1
                              obtain ⟨ext2, refs2⟩ := ih _ _ _ _ hrec2
                              refine ⟨heapExtends_trans ext1 (heapExtends_trans
                                (allocNode_extends _ _) ext2), fun b hb => ?_⟩
                              rcases List.mem_cons.mp hb with hb | hb
                              · injection hb with hb'
                                subst hb'
                                exact ext1.1
                              · exact Nat.le_trans (Nat.le_trans ext1.1 (Nat.le_succ _))
                                  (refs2 b hb)
          | hNull =>
              simp only [deepCopyManyH] at heq
              cases hrec : deepCopyManyH fuel h vs with
              | none => rw [hrec] at heq; simp at heq
              | some pr =>
                  obtain ⟨h2', vs2'⟩ := pr
                  rw [hrec] at heq
                  simp only [Option.some.injEq, Prod.mk.injEq] at heq
                  obtain ⟨rfl, rfl⟩ := heq
                  obtain ⟨ext, refs⟩ := ih _ _ _ _ hrec
                  refine ⟨ext, fun b hb => ?_⟩
                  rcases List.mem_cons.mp hb with hb | hb
                  · exact absurd hb (by simp)
                  · exact refs b hb
          | hUndefined =>
              simp only [deepCopyManyH] at heq
              cases hrec : deepCopyManyH fuel h vs with
              | none => rw [hrec] at heq; simp at heq
              | some pr =>
                  obtain ⟨h2', vs2'⟩ := pr
                  rw [hrec] at heq
                  simp only [Option.some.injEq, Prod.mk.injEq] at heq
                  obtain ⟨rfl, rfl⟩ := heq
                  obtain ⟨ext, refs⟩ := ih _ _ _ _ hrec
                  refine ⟨ext, fun b hb => ?_⟩
                  rcases List.mem_cons.mp hb with hb | hb
                  · exact absurd hb (by simp)
                  · exact refs b hb
          | hBool c =>
              simp only [deepCopyManyH] at heq
              cases hrec : deepCopyManyH fuel h vs with
              | none => rw [hrec] at heq; simp at heq
              | some pr =>
                  obtain ⟨h2', vs2'⟩ := pr
                  rw [hrec] at heq
                  simp only [Option.some.injEq, Prod.mk.injEq] at heq
                  obtain ⟨rfl, rfl⟩ := heq
                  obtain ⟨ext, refs⟩ := ih _ _ _ _ hrec
                  refine ⟨ext, fun b hb => ?_⟩
                  rcases List.mem_cons.mp hb with hb | hb
                  · exact absurd hb (by simp)
                  · exact refs b hb
          | hNum n =>
              simp only [deepCopyManyH] at heq
              cases hrec : deepCopyManyH fuel h vs with
              | none => rw [hrec] at heq; simp at heq
              | some pr =>
                  obtain ⟨h2', vs2'⟩ := pr
                  rw [hrec] at heq
                  simp only [Option.some.injEq, Prod.mk.injEq] at heq
                  obtain ⟨rfl, rfl⟩ := heq
                  obtain ⟨ext, refs⟩ := ih _ _ _ _ hrec
                  refine ⟨ext, fun b hb => ?_⟩
                  rcases List.mem_cons.mp hb with hb | hb
                  · exact absurd hb (by simp)
                  · exact refs b hb
          | hStr s =>
              simp only [deepCopyManyH] at heq
              cases hrec : deepCopyManyH fuel h vs with
              | none => rw [hrec] at heq; simp at heq
              | some pr =>
                  obtain ⟨h2', vs2'⟩ := pr
                  rw [hrec] at heq
                  simp only [Option.some.injEq, Prod.mk.injEq] at heq
                  obtain ⟨rfl, rfl⟩ := heq
                  obtain ⟨ext, refs⟩ := ih _ _ _ _ hrec
                  refine ⟨ext, fun b hb => ?_⟩
                  rcases List.mem_cons.mp hb with hb | hb
                  · exact absurd hb (by simp)
                  · exact refs b hb

/-- The single-value deep copy only allocates, and when it returns a
reference that reference is fresh. -/
theorem deepCopyH_spec {fuel : Nat} {h : Heap} {v : HVal} {h1 : Heap} {v2 : HVal}
    (heq : deepCopyH fuel h v = some (h1, v2)) :
    heapExtends h h1 ∧ ∀ a, v2 = HVal.hRef a → h.next ≤ a := by
  rw [deepCopyH] at heq
  cases hrec : deepCopyManyH fuel h [v] with
  | none => rw [hrec] at heq; simp at heq
  | some pr =>
      obtain ⟨h2', vs2'⟩ := pr
      rw [hrec] at heq
      cases vs2' with
      | nil => simp at heq
      | cons w ws =>
          cases ws with
          | nil =>
              simp only [Option.some.injEq, Prod.mk.injEq] at heq
              obtain ⟨rfl, rfl⟩ := heq
              obtain ⟨ext, refs⟩ := deepCopyManyH_spec fuel h [v] _ _ hrec
              exact ⟨ext, fun a ha => refs a (by rw [← ha]; exact List.mem_singleton_self _)⟩
          | cons w2 ws2 => simp at heq

theorem lookupAddr_mem {mem : List (Addr × HNode)} {a : Addr} {nd : HNode}
    (h : lookupAddr mem a = some nd) : (a, nd) ∈ mem := by
  induction mem with
  | nil => simp [lookupAddr] at h
  | cons p rest ih =>
      obtain ⟨pa, pn⟩ := p
      rw [lookupAddr] at h
      by_cases hpa : pa = a
      · subst hpa
        rw [if_pos rfl] at h
        injection h with h'
        subst h'
        exact List.mem_cons_self _ _
      · rw [if_neg hpa] at h
        exact List.mem_cons_of_mem _ (ih h)

theorem heapClosed_node {h : Heap} {a : Addr} {nd : HNode}
    (hc : heapClosed h = true) (hr : readAddr h a = some nd) :
    a < h.next ∧ ∀ b ∈ nodeRefs nd, b < h.next := by
  have hmem := lookupAddr_mem hr
  have hall := List.all_eq_true.mp hc _ hmem
  simp only [Bool.and_eq_true, decide_eq_true_eq, List.all_eq_true] at hall
  exact ⟨hall.1, fun b hb => hall.2 b hb⟩

theorem refsOfVals_mem {b : Addr} : ∀ {vs : List HVal},
    HVal.hRef b ∈ vs → b ∈ refsOfVals vs := by
  intro vs h
  induction vs with
  | nil => simp at h
  | cons v vs ih =>
      rcases List.mem_cons.mp h with h | h
      · rw [← h]
        simp [refsOfVals, hvalRefs]
      · exact List.mem_append_right _ (ih h)

/-- Reading a value tree only consults addresses reachable from its
roots, all below the frontier of a closed heap; so any heap that reads
identically below that frontier yields the identical tree. -/
theorem readTreeManyH_congr {h h' : Heap}
    (hc : heapClosed h = true)
    (hext : ∀ a, a < h.next → readAddr h' a = readAddr h a) :
    ∀ (fuel : Nat) (vs : List HVal),
      (∀ a, HVal.hRef a ∈ vs → a < h.next) →
      readTreeManyH fuel h' vs = readTreeManyH fuel h vs := by
  intro fuel
  induction fuel with
  | zero => intro vs _; rfl
  | succ fuel ih =>
      intro vs hvs
      cases vs with
      | nil => rfl
      | cons v vs =>
          cases v with
          | hRef a =>
              have ha : a < h.next := hvs a (List.mem_cons_self _ _)
              simp only [readTreeManyH]
              rw [hext a ha]
              cases hra : readAddr h a with
              | none => rfl
              | some nd =>
                  have hnode := (heapClosed_node hc hra).2
                  cases nd with
                  | hDate t =>
                      dsimp only
                      rw [ih vs (fun b hb => hvs b (List.mem_cons_of_mem _ hb))]
                  | hArr elems =>
                      dsimp only
                      rw [ih elems (fun b hb => hnode b (refsOfVals_mem hb)),
                        ih vs (fun b hb => hvs b (List.mem_cons_of_mem _ hb))]
                  | hObj fields =>
                      dsimp only
                      rw [ih (fields.map Prod.snd)
                          (fun b hb => hnode b (refsOfVals_mem hb)),
                        ih vs (fun b hb => hvs b (List.mem_cons_of_mem _ hb))]
          | hNull =>
              simp only [readTreeManyH]
              rw [ih vs (fun b hb => hvs b (List.mem_cons_of_mem _ hb))]
          | hUndefined =>
              simp only [readTreeManyH]
              rw [ih vs (fun b hb => hvs b (List.mem_cons_of_mem _ hb))]
          | hBool c =>
              simp only [readTreeManyH]
              rw [ih vs (fun b hb => hvs b (List.mem_cons_of_mem _ hb))]
          | hNum n =>
              simp only [readTreeManyH]
              rw [ih vs (fun b hb => hvs b (List.mem_cons_of_mem _ hb))]
          | hStr s =>
              simp only [readTreeManyH]
              rw [ih vs (fun b hb => hvs b (List.mem_cons_of_mem _ hb))]

/-- The whole heap-level update only allocates fresh nodes and writes
into the fresh copy: every address that existed before the call reads
exactly as before, whether the update succeeds or fails. -/
theorem updateRecordWithValidationH_extends {fuel : Nat} {h : Heap} {cur upd : Addr}
    {now : Int} {h2 : Heap} {res : UpdateResultH}
    (hrun : updateRecordWithValidationH fuel h cur upd now = some (h2, res)) :
    heapExtends h h2 := by
  rw [updateRecordWithValidationH] at hrun
  cases hdc : deepCopyH fuel h (.hRef cur) with
  | none => rw [hdc] at hrun; simp at hrun
  | some pr =>
      obtain ⟨h1, cv⟩ := pr
      rw [hdc] at hrun
      cases cv with
      | hRef c =>
          dsimp only at hrun
          obtain ⟨ext1, refs1⟩ := deepCopyH_spec hdc
          have hcfresh : h.next ≤ c := refs1 c rfl
          have ext2 : heapExtends h (allocNode h1 (.hDate now)).1 :=
            heapExtends_trans ext1 (allocNode_extends _ _)
          have ext3 := writeFieldH_extends (c := c) (k := "updatedAt")
            (v := .hRef (allocNode h1 (.hDate now)).2) ext2 hcfresh
          have ext4 := applyUpdatesH_extends
            (objFieldsH (writeFieldH (allocNode h1 (.hDate now)).1 c "updatedAt"
              (.hRef (allocNode h1 (.hDate now)).2)) upd) ext3 hcfresh
          have ext5 := validateRecordH_extends ext4 hcfresh
          split at hrun
          · injection hrun with hrun'
            injection hrun' with hh hr
            rw [← hh]
            exact ext5
          · injection hrun with hrun'
            injection hrun' with hh hr
            rw [← hh]
            exact ext5
      | hNull => dsimp only at hrun; simp at hrun
      | hUndefined => dsimp only at hrun; simp at hrun
      | hBool b => dsimp only at hrun; simp at hrun
      | hNum n => dsimp only at hrun; simp at hrun
      | hStr s => dsimp only at hrun; simp at hrun

/-- C1: updateRecordWithValidation never mutates the base record.  On
the heap-level embedding: for any closed heap holding the base record
at some live address, any change set and any call time, whenever the
update returns, reading the whole value tree of the base record out of
the resulting heap - nested objects, arrays and timestamp objects
included - yields exactly the tree it held before the call, whether
the returned result is valid or invalid. -/
theorem update_never_mutates_base {fuel fuel2 : Nat} {h h2 : Heap} {cur upd : Addr}
    {now : Int} {res : UpdateResultH}
    (hclosed : heapClosed h = true) (hcur : cur < h.next)
    (hrun : updateRecordWithValidationH fuel h cur upd now = some (h2, res)) :
    readTreeH fuel2 h2 (.hRef cur) = readTreeH fuel2 h (.hRef cur) := by
  have hext := updateRecordWithValidationH_extends hrun
  rw [readTreeH, readTreeH,
    readTreeManyH_congr hclosed hext.2 fuel2 [.hRef cur]
      (fun a ha => by
        have hav : HVal.hRef a = HVal.hRef cur := List.mem_singleton.mp ha
        injection hav with h'
        exact h' ▸ hcur)]

/-- Witness for the C1 theorem: the concrete run on exHeap leaves the
base record's tree at address 0 untouched. -/
theorem update_never_mutates_base_witness :
    readTreeH 20 exHeapAfter (.hRef 0) = readTreeH 20 exHeap (.hRef 0) :=
  @update_never_mutates_base 20 20 exHeap exHeapAfter 0 4 77 exResAfter
    (by with_unfolding_all rfl) (by decide)
    (show updateRecordWithValidationH 20 exHeap 0 4 77 = some (exHeapAfter, exResAfter) by
      with_unfolding_all rfl)

